import Mathlib

/-!
Verification of the WireGuard peer-registry core of proj_piercer.

The registry stores peers in a text file (`wg0.conf`).  We embed the text
as `List Char` and translate the Python functions of
`src/piercer/core/wg_parser.py` and `src/piercer/dns_server.py` into
executable Lean definitions, including the backtracking semantics of the
regular expressions the source compiles (`PEER_PATTERN`, the four field
patterns, and the removal pattern).
-/

set_option maxHeartbeats 1000000
set_option maxRecDepth 100000

deriving instance DecidableEq for Except

abbrev Str := List Char

def sLit (s : String) : Str := s.toList

/-- Python `str.isspace` characters relevant to `strip()` (ASCII). -/
def pyIsSpace (c : Char) : Bool :=
  c = ' ' || c = '\t' || c = '\n' || c = '\r' || c = '\x0b' || c = '\x0c'

/-- Python `str.lstrip()`. -/
def pyLStrip (s : Str) : Str := s.dropWhile pyIsSpace

/-- Python `str.rstrip()`. -/
def pyRStrip (s : Str) : Str := (s.reverse.dropWhile pyIsSpace).reverse

/-- Python `str.strip()`. -/
def pyStrip (s : Str) : Str := pyRStrip (pyLStrip s)

/-- Match a literal prefix, returning the remainder (regex literal text). -/
def dropPref : Str → Str → Option Str
  | [], s => some s
  | _ :: _, [] => none
  | p :: ps, c :: cs => if p = c then dropPref ps cs else none

/-- `s` has no occurrence of `p` (at any offset). -/
def noSub (p s : Str) : Prop := ∀ j, dropPref p (s.drop j) = none

/-- Boolean occurrence test used in decidable hypotheses. -/
def noSubB (p : Str) : Str → Bool
  | [] => (dropPref p []).isNone
  | s@(_ :: cs) => (dropPref p s).isNone && noSubB p cs

/-- Greedy `=+` followed by a literal newline (`=+\n` with the regex
backtracking collapsed: a shorter run of `=` is still followed by `=`,
never by `\n`, so only the maximal run can succeed). -/
def eqRunNl : Str → Option Str
  | '=' :: rest =>
    match rest.dropWhile (· = '=') with
    | '\n' :: r => some r
    | _ => none
  | _ => none

/-- Lazy `(.+?)` (DOTALL) followed by a sub-matcher `p`, with full
backtracking: the group grows one character at a time and at each stop the
continuation `p` is attempted; failures of `p` keep growing the group. -/
def lazyPlus (p : Str → Option α) : Str → Option (Str × α)
  | [] => none
  | c :: cs =>
    match p cs with
    | some a => some ([c], a)
    | none =>
      match lazyPlus p cs with
      | some (g, a) => some (c :: g, a)
      | none => none

/-- Lazy `(.*?)(?=\n# =+|\Z)` (DOTALL): consume until the lookahead
`\n# =` (the `=+` needs at least one `=`) or the end of the input; the
lookahead is not consumed. -/
def lazyStarBanner : Str → (Str × Str)
  | [] => ([], [])
  | c :: cs =>
    if (dropPref (sLit "\n# =") (c :: cs)).isSome then ([], c :: cs)
    else
      match lazyStarBanner cs with
      | (g, r) => (c :: g, r)

/-- The delimiter `\n# =+\n\[Peer\]\n` ending the `AddedAt` group. -/
def matchHdrEnd (s : Str) : Option Str :=
  match dropPref (sLit "\n# ") s with
  | none => none
  | some s1 =>
    match eqRunNl s1 with
    | none => none
    | some s2 => dropPref (sLit "[Peer]\n") s2

/-- Continuation after the `ClientName` group of `PEER_PATTERN`:
`\n# AddedAt: (.+?)\n# =+\n\[Peer\]\n(.*?)(?=\n# =+|\Z)`. -/
def groupTail (t : Str) : Option (Str × Str × Str) :=
  match dropPref (sLit "\n# AddedAt: ") t with
  | none => none
  | some t1 =>
    match lazyPlus matchHdrEnd t1 with
    | none => none
    | some (date, t2) =>
      match lazyStarBanner t2 with
      | (block, rest) => some (date, block, rest)

/-- `PEER_PATTERN` attempted at one position (which the scanner only does
at the start of a line, for the MULTILINE `^`):
`# =+\n# ClientName: (.+?)\n# AddedAt: (.+?)\n# =+\n\[Peer\]\n(.*?)(?=\n# =+|\Z)`.
Returns (name, date, block content, rest after the match). -/
def matchPeerAt (s : Str) : Option (Str × Str × Str × Str) :=
  match dropPref (sLit "# ") s with
  | none => none
  | some s1 =>
    match eqRunNl s1 with
    | none => none
    | some s2 =>
      match dropPref (sLit "# ClientName: ") s2 with
      | none => none
      | some s3 =>
        match lazyPlus groupTail s3 with
        | none => none
        | some (name, (date, block, rest)) => some (name, date, block, rest)

/-- `finditer` scan for `PEER_PATTERN`: try the pattern at every
line-start position, resume after each match.  `fuel` only bounds the
recursion; `length + 1` steps always suffice. -/
def scanGo : Nat → Str → Bool → List (Str × Str × Str)
  | 0, _, _ => []
  | _ + 1, [], _ => []
  | fuel + 1, s@(c :: cs), true =>
    match matchPeerAt s with
    | some (n, d, b, rest) =>
      (n, d, b) :: scanGo fuel rest (b.getLastD '\n' = '\n')
    | none => scanGo fuel cs (c = '\n')
  | fuel + 1, c :: cs, false => scanGo fuel cs (c = '\n')

def scanPeers (content : Str) : List (Str × Str × Str) :=
  scanGo (content.length + 1) content true

/- ---- the four field sub-patterns, e.g. `PublicKey\s*=\s*(.+)` ---- -/

/-- `\s*(.+)` after the `=`: the greedy whitespace run backtracks from its
maximal length `j` downwards until `(.+)` can start with a non-newline
character; the group is then the maximal newline-free run. -/
def findGroup (u : Str) : Nat → Option Str
  | 0 =>
    match u with
    | [] => none
    | c :: _ => if c = '\n' then none else some (u.takeWhile (· ≠ '\n'))
  | j + 1 =>
    match u.drop (j + 1) with
    | [] => findGroup u j
    | c :: _ =>
      if c = '\n' then findGroup u j
      else some ((u.drop (j + 1)).takeWhile (· ≠ '\n'))

def matchSpGroup (u : Str) : Option Str :=
  findGroup u (u.takeWhile pyIsSpace).length

/-- `key\s*=\s*(.+)` attempted at one position. -/
def matchKeyAt (key : Str) (s : Str) : Option Str :=
  match dropPref key s with
  | none => none
  | some t =>
    match t.dropWhile pyIsSpace with
    | '=' :: u => matchSpGroup u
    | _ => none

/-- `re.search(key + "\s*=\s*(.+)", block)`: leftmost match. -/
def reSearchKV (key : Str) : Str → Option Str
  | [] => none
  | s@(_ :: cs) =>
    match matchKeyAt key s with
    | some g => some g
    | none => reSearchKV key cs

def pkKey : Str := sLit "PublicKey"
def aiKey : Str := sLit "AllowedIPs"
def epKey : Str := sLit "Endpoint"
def pskKey : Str := sLit "PresharedKey"

/- ---- the data model ---- -/

structure WgPeer where
  name : Str
  public_key : Str
  allowed_ips : Str
  added_at : Str
  endpoint : Option Str := none
  preshared_key : Option Str := none
  latest_handshake : Option Nat := none
  transfer_rx : Option Nat := none
  transfer_tx : Option Nat := none
deriving DecidableEq, Repr

/-- One regex match turned into a `WgPeer` (`parse_peers` loop body):
blocks whose content lacks a `PublicKey` or `AllowedIPs` match are
dropped. -/
def extractPeer (m : Str × Str × Str) : Option WgPeer :=
  match reSearchKV pkKey m.2.2, reSearchKV aiKey m.2.2 with
  | some pk, some ai =>
    some
      { name := pyStrip m.1
        public_key := pyStrip pk
        allowed_ips := pyStrip ai
        added_at := pyStrip m.2.1
        endpoint := (reSearchKV epKey m.2.2).map pyStrip
        preshared_key := (reSearchKV pskKey m.2.2).map pyStrip }
  | _, _ => none

/-- `WgParser.parse_peers` on explicit content. -/
def parse_peers (content : Str) : List WgPeer :=
  (scanPeers content).filterMap extractPeer

example : parse_peers (sLit "x") = [] := by decide

/- ---- generation (`WgParser.generate_peer_block`) ---- -/

/-- `"\n".join`. -/
def joinNl : List Str → Str
  | [] => []
  | [l] => l
  | l :: ls => l ++ '\n' :: joinNl ls

def bannerLine : Str := '#' :: ' ' :: List.replicate 42 '='

/-- `WgParser.generate_peer_block` (note the Python truthiness test on the
two optional fields: `None` and the empty string are both skipped). -/
def generate_peer_block (name public_key assigned_ip added_at : Str)
    (endpoint preshared_key : Option Str) : Str :=
  joinNl
    ([[], bannerLine,
      sLit "# ClientName: " ++ name,
      sLit "# AddedAt: " ++ added_at,
      bannerLine,
      sLit "[Peer]",
      sLit "PublicKey = " ++ public_key,
      sLit "AllowedIPs = " ++ assigned_ip ++ sLit "/32"] ++
     (match preshared_key with
      | some k => if k = [] then [] else [sLit "PresharedKey = " ++ k]
      | none => []) ++
     (match endpoint with
      | some e => if e = [] then [] else [sLit "Endpoint = " ++ e]
      | none => []))

/- ---- addresses (`ipaddress.IPv4Address`) ---- -/

/-- Python `"x".split(sep)` on a character separator (empty parts kept). -/
def splitOnChar (sep : Char) : Str → List Str
  | [] => [[]]
  | c :: cs =>
    match splitOnChar sep cs with
    | [] => if c = sep then [[], []] else [[c]]
    | h :: t => if c = sep then [] :: h :: t else (c :: h) :: t

/-- `allowed_ips.split("/")[0]`. -/
def pyHost (s : Str) : Str := s.takeWhile (· ≠ '/')

/-- One dotted-quad octet as `IPv4Address` accepts it: 1–3 ASCII digits,
no leading zero (except "0" itself), value at most 255. -/
def parseOctet (s : Str) : Option Nat :=
  if s = [] then none
  else if ¬ s.all Char.isDigit then none
  else if 3 < s.length then none
  else if 1 < s.length ∧ s.headD '0' = '0' then none
  else
    let n := s.foldl (fun a c => a * 10 + (c.toNat - 48)) 0
    if 255 < n then none else some n

/-- `IPv4Address(str)`: exactly four octets, returned as the 32-bit value. -/
def parseIPv4 (s : Str) : Option Nat :=
  match splitOnChar '.' s with
  | [a, b, c, d] =>
    match parseOctet a, parseOctet b, parseOctet c, parseOctet d with
    | some x, some y, some z, some w => some (((x * 256 + y) * 256 + z) * 256 + w)
    | _, _, _, _ => none
  | _ => none

def ipVal (a b c d : Nat) : Nat := ((a * 256 + b) * 256 + c) * 256 + d

def SERVER_IP : Nat := ipVal 10 8 0 1

/-- `WgParser.get_used_ips`: the server address plus every peer's
parseable host portion. -/
def get_used_ips (content : Str) : List Nat :=
  (parse_peers content).foldl
    (fun acc p =>
      match parseIPv4 (pyHost p.allowed_ips) with
      | some ip => acc ++ [ip]
      | none => acc)
    [SERVER_IP]

inductive WgError where
  | storeNotFound
  | nameConflict
  | addressConflict
  | invalidAddress
  | poolExhausted
deriving DecidableEq, Repr

/-- `WgParser.get_next_available_ip`: scan `10.8.0.2` … `10.8.0.254` in
order, return the first unused; `RuntimeError` when the pool is full. -/
def get_next_available_ip (content : Str) : Except WgError Nat :=
  match (List.range' 2 253).find? (fun i => ¬ ipVal 10 8 0 i ∈ get_used_ips content) with
  | some i => .ok (ipVal 10 8 0 i)
  | none => .error .poolExhausted

/-- `WgParser.check_ip_conflict` (raises `ValueError` on an unparsable
candidate). -/
def check_ip_conflict (ip content : Str) : Except WgError Bool :=
  match parseIPv4 (pyHost ip) with
  | none => .error .invalidAddress
  | some target => .ok (target ∈ get_used_ips content)

/-- `WgParser.check_name_conflict`. -/
def check_name_conflict (name content : Str) : Bool :=
  (parse_peers content).any (fun p => p.name = name)

/- ---- mutation on explicit content ---- -/

/-- `WgParser.add_peer` given the current content; returns the new
content to be written, or the error raised before any write. -/
def add_peer (content : Str) (name public_key assigned_ip added_at : Str)
    (endpoint preshared_key : Option Str) : Except WgError Str :=
  if check_name_conflict name content then .error .nameConflict
  else
    match check_ip_conflict assigned_ip content with
    | .error e => .error e
    | .ok true => .error .addressConflict
    | .ok false =>
      .ok (pyRStrip content ++ '\n' ::
            (generate_peer_block name public_key assigned_ip added_at
              endpoint preshared_key ++ ['\n']))

/-- The name-specific removal pattern after its optional `\n?`:
`# =+\n# ClientName: {re.escape(name)}\n# AddedAt: .+?\n# =+\n\[Peer\]\n.*?(?=\n# =+|\Z)`
(`re.escape` makes `name` a literal).  Returns the rest after the match. -/
def matchRemoveCore (name : Str) (s : Str) : Option Str :=
  match dropPref (sLit "# ") s with
  | none => none
  | some s1 =>
    match eqRunNl s1 with
    | none => none
    | some s2 =>
      match dropPref (sLit "# ClientName: " ++ name ++ sLit "\n# AddedAt: ") s2 with
      | none => none
      | some t1 =>
        match lazyPlus matchHdrEnd t1 with
        | none => none
        | some (_, t2) => some (lazyStarBanner t2).2

/-- The removal pattern at one position: the leading `\n?` is tried with
the newline first; without it the next character would have to be `#`,
which a newline is not, so the two cases do not overlap. -/
def matchRemoveAt (name : Str) (s : Str) : Option Str :=
  match s with
  | '\n' :: s1 => matchRemoveCore name s1
  | _ => matchRemoveCore name s

/-- `pattern.subn("", content)`: delete every non-overlapping match, left
to right, counting them.  `fuel` only bounds the recursion. -/
def subnGo (name : Str) : Nat → Str → (Str × Nat)
  | 0, s => (s, 0)
  | _ + 1, [] => ([], 0)
  | fuel + 1, s@(c :: cs) =>
    match matchRemoveAt name s with
    | some rest =>
      match subnGo name fuel rest with
      | (r, k) => (r, k + 1)
    | none =>
      match subnGo name fuel cs with
      | (r, k) => (c :: r, k)

/-- `WgParser.remove_peer` given the current content: `none` when no
block matched (the file is not rewritten), otherwise the new content. -/
def remove_peer (content name : Str) : Option Str :=
  match subnGo name (content.length + 1) content with
  | (_, 0) => none
  | (nc, _ + 1) => some nc

/- ---- the backing file (`read_config` / `write_config`) ---- -/

/-- The backing store: `none` when `wg0.conf` does not exist. -/
abbrev ConfStore := Option Str

/-- `WgParser.read_config`: `FileNotFoundError` when absent. -/
def read_config : ConfStore → Except WgError Str
  | none => .error .storeNotFound
  | some t => .ok t

/-- `add_peer` as the API endpoint drives it: read, check, append, write.
Returns the store after the call together with the outcome. -/
def addPeerState (fs : ConfStore) (name public_key assigned_ip added_at : Str)
    (endpoint preshared_key : Option Str) : ConfStore × Except WgError Unit :=
  match read_config fs with
  | .error e => (fs, .error e)
  | .ok content =>
    match add_peer content name public_key assigned_ip added_at endpoint preshared_key with
    | .error e => (fs, .error e)
    | .ok nc => (some nc, .ok ())

/-- `remove_peer` as the API endpoint drives it.  The boolean is the
"was a block found" result. -/
def removePeerState (fs : ConfStore) (name : Str) : ConfStore × Except WgError Bool :=
  match read_config fs with
  | .error e => (fs, .error e)
  | .ok content =>
    match remove_peer content name with
    | none => (fs, .ok false)
    | some nc => (some nc, .ok true)

/-- The `/api/wg/peer/list` endpoint: `FileNotFoundError` is caught and
an empty list returned.  (The runtime-status merge only fills the three
runtime fields from `wg show`, which is external; with the tool absent it
degrades to the identity on the parsed records.) -/
def listPeersEndpoint (fs : ConfStore) : List WgPeer :=
  match read_config fs with
  | .error _ => []
  | .ok content => parse_peers content

/- ---- the DNS resolver (`InternalDNSServer`) ---- -/

def asciiLower (c : Char) : Char :=
  if 'A' ≤ c ∧ c ≤ 'Z' then Char.ofNat (c.toNat + 32) else c

def pyLower (s : Str) : Str := s.map asciiLower

/-- Python `str.rstrip(".")`. -/
def rstripDots (s : Str) : Str := (s.reverse.dropWhile (· = '.')).reverse

/-- `dnslib.QTYPE.A`. -/
def QTYPE_A : Nat := 1

/-- Python dict insertion: an existing key keeps its position but gets
the new value, a new key is appended. -/
def dictInsert (m : List (Str × Str)) (k v : Str) : List (Str × Str) :=
  if m.any (fun e => e.1 = k) then m.map (fun e => if e.1 = k then (k, v) else e)
  else m ++ [(k, v)]

def dictGet (m : List (Str × Str)) (k : Str) : Option Str :=
  (m.find? (fun e => e.1 = k)).map (fun e => e.2)

/-- `InternalDNSServer.get_name_to_ip_mapping`: peers first (lower-cased
names), `FileNotFoundError` swallowed, then the two fixed aliases. -/
def get_name_to_ip_mapping (fs : ConfStore) : List (Str × Str) :=
  let base :=
    match read_config fs with
    | .error _ => []
    | .ok content =>
      (parse_peers content).foldl
        (fun m p => dictInsert m (pyLower p.name) (pyHost p.allowed_ips)) []
  dictInsert (dictInsert base (sLit "server") (sLit "10.8.0.1"))
    (sLit "gateway") (sLit "10.8.0.1")

/-- Python `qname[:-len(suffix)]`. -/
def pySliceToNeg (s : Str) (n : Nat) : Str :=
  if n = 0 then [] else s.take (s.length - n)

/-- `InternalDNSServer.resolve_query`.  `suffix` is the stored
`domain_suffix`, which `__init__` lower-cases. -/
def resolve_query (suffix : Str) (fs : ConfStore) (qname : Str) (qtype : Nat) :
    Option Str :=
  let q := rstripDots (pyLower qname)
  if qtype ≠ QTYPE_A then none
  else if ¬ suffix.isSuffixOf q then none
  else dictGet (get_name_to_ip_mapping fs) (pySliceToNeg q suffix.length)

/- ---- well-formedness predicates and canonical stores ---- -/

/-- A field value as the registry writes and re-reads it: non-empty,
single-line, already stripped, and free of the banner fragment and of the
four key tokens (so a value cannot be mistaken for another field). -/
def WfFieldB (v : Str) : Bool :=
  decide (v ≠ []) && v.all (fun c => c ≠ '\n') && decide (pyStrip v = v) &&
  noSubB (sLit "# =") v && noSubB pkKey v && noSubB aiKey v &&
  noSubB pskKey v && noSubB epKey v

def WfOptB : Option Str → Bool
  | none => true
  | some v => WfFieldB v

/-- The arguments of one `add_peer` call. -/
structure PeerSpec where
  name : Str
  public_key : Str
  assigned_ip : Str
  added_at : Str
  endpoint : Option Str := none
  preshared_key : Option Str := none
deriving DecidableEq, Repr

def WfSpecB (s : PeerSpec) : Bool :=
  WfFieldB s.name && WfFieldB s.public_key && WfFieldB s.assigned_ip &&
  WfFieldB s.added_at && WfOptB s.endpoint && WfOptB s.preshared_key

/-- A decoded record that the codec can faithfully re-encode: well-formed
fields and an `allowed_ips` of the canonical `host/32` shape. -/
def WfPeerRecB (r : WgPeer) : Bool :=
  WfFieldB r.name && WfFieldB r.public_key && WfFieldB r.allowed_ips &&
  WfFieldB r.added_at && WfOptB r.endpoint && WfOptB r.preshared_key &&
  decide (r.allowed_ips = pyHost r.allowed_ips ++ sLit "/32")

/-- An optional body line of a rendered peer block. -/
def optLine (pre : String) : Option Str → Str
  | none => []
  | some v => if v = [] then [] else '\n' :: (sLit pre ++ v)

/-- The `[Peer]` body rendered by `generate_peer_block`. -/
def bodyOf (public_key assigned_ip : Str) (preshared_key endpoint : Option Str) : Str :=
  sLit "PublicKey = " ++ public_key ++ sLit "\nAllowedIPs = " ++ assigned_ip ++
  sLit "/32" ++ optLine "PresharedKey = " preshared_key ++ optLine "Endpoint = " endpoint

/-- A rendered block without its leading newline: banner, header, body. -/
def genCore (name added_at body : Str) : Str :=
  bannerLine ++ '\n' :: (sLit "# ClientName: " ++ name ++ sLit "\n# AddedAt: " ++
    added_at ++ '\n' :: (bannerLine ++ sLit "\n[Peer]\n" ++ body))

/-- A raw peer block of the backing store (the body need not be a
well-formed `[Peer]` body — that is what C8 is about). -/
structure RawBlock where
  name : Str
  added_at : Str
  body : Str
deriving DecidableEq, Repr

def WfHdrB (v : Str) : Bool := decide (v ≠ []) && v.all (fun c => c ≠ '\n')

def WfRawB (b : RawBlock) : Bool :=
  WfHdrB b.name && WfHdrB b.added_at && noSubB (sLit "\n# =") b.body

/-- The part of a canonical store after the interface prefix: each block
preceded by a blank line, a single final newline. -/
def chainN : List RawBlock → Str
  | [] => ['\n']
  | b :: bs => '\n' :: '\n' :: (genCore b.name b.added_at b.body ++ chainN bs)

/-- A canonical backing store: prefix (interface block and comments)
followed by peer blocks.  This is exactly the shape `add_peer` writes. -/
def storeTextR (P : Str) (bs : List RawBlock) : Str := P ++ chainN bs

def specRaw (s : PeerSpec) : RawBlock :=
  ⟨s.name, s.added_at, bodyOf s.public_key s.assigned_ip s.preshared_key s.endpoint⟩

def storeOf (P : Str) (ss : List PeerSpec) : Str := storeTextR P (ss.map specRaw)

/-- The record `parse_peers` yields for the block of a spec. -/
def specPeer (s : PeerSpec) : WgPeer :=
  { name := s.name
    public_key := s.public_key
    allowed_ips := s.assigned_ip ++ sLit "/32"
    added_at := s.added_at
    endpoint := s.endpoint
    preshared_key := s.preshared_key }

/-- A store prefix the scanner walks through without matching: no banner
fragment anywhere, no trailing whitespace. -/
def WfPrefixB (P : Str) : Bool := noSubB (sLit "# =") P && decide (pyRStrip P = P)

/-- `encode` of one decoded record (the host portion of its address is
what `add_peer` would pass as `assigned_ip`). -/
def encodePeer (r : WgPeer) : Str :=
  generate_peer_block r.name r.public_key (pyHost r.allowed_ips) r.added_at
    r.endpoint r.preshared_key

/-- `encode` of a record set: the concatenation of its rendered blocks. -/
def encodeAll : List WgPeer → Str
  | [] => []
  | r :: rs => encodePeer r ++ encodeAll rs

/- ---- concrete stores used in the instance parts of the claims ---- -/

def cIface : Str :=
  sLit "[Interface]\nPrivateKey = SERVERKEY\nAddress = 10.8.0.1/24\nListenPort = 51820"

def spec5 : PeerSpec :=
  ⟨sLit "five", sLit "K5", sLit "10.8.0.5", sLit "2024-01-01", none, none⟩
def spec6 : PeerSpec :=
  ⟨sLit "six", sLit "K6", sLit "10.8.0.6", sLit "2024-01-02", none, none⟩
def spec7 : PeerSpec :=
  ⟨sLit "seven", sLit "K7", sLit "10.8.0.7", sLit "2024-01-03", none, none⟩
def specA2 : PeerSpec :=
  ⟨sLit "a", sLit "KA", sLit "10.8.0.2", sLit "2024-01-04", none, none⟩
def specHomeNas : PeerSpec :=
  ⟨sLit "home-nas", sLit "KN", sLit "10.8.0.6", sLit "2024-01-05",
    some (sLit "nas.home.com:51820"), none⟩
def specServer9 : PeerSpec :=
  ⟨sLit "Server", sLit "KS", sLit "10.8.0.9", sLit "2024-01-06", none, none⟩
def specAB : PeerSpec :=
  ⟨sLit "a.b", sLit "KAB", sLit "10.8.0.11", sLit "2024-01-07", none, none⟩
def specAXB : PeerSpec :=
  ⟨sLit "axb", sLit "KAXB", sLit "10.8.0.12", sLit "2024-01-08", none, none⟩

/-- A block whose body has an `AllowedIPs` line but no `PublicKey` line:
`parse_peers` must skip it silently. -/
def badBlock : RawBlock :=
  ⟨sLit "broken", sLit "2024-01-09", sLit "AllowedIPs = 10.8.0.9/32"⟩

/-- A store whose middle block is malformed (no `PublicKey` line). -/
def cStoreBad : Str :=
  storeTextR cIface [specRaw spec5, badBlock, specRaw spec7]

def cStore567 : Str := storeOf cIface [spec5, spec6, spec7]
def cStoreA : Str := storeOf cIface [specA2]
def cStoreDNS : Str := storeOf cIface [specHomeNas]
def cStoreShadow : Str := storeOf cIface [specServer9]
def cStoreMeta : Str := storeOf cIface [specAB, specAXB]
def cStoreAXB : Str := storeOf cIface [specAXB]

/-- A store that ends with blank lines (two extra trailing newlines after
the canonical single one). -/
def cStoreNL : Str := storeOf cIface [spec5] ++ ['\n', '\n']

/-- The header part of a rendered block after its leading `#`, ending at
the newline before the second banner (used to walk the removal scan). -/
def G1tOf (m d : Str) : Str :=
  (' ' :: List.replicate 42 '=') ++ ('\n' :: (sLit "# ClientName:" ++
    ((' ' :: m) ++ ('\n' :: (sLit "# AddedAt:" ++ ((' ' :: d) ++ ['\n']))))))

/-- The tail of a rendered block after the second banner's `#`. -/
def G2tOf (b : Str) : Str :=
  (' ' :: List.replicate 42 '=') ++ (sLit "\n[Peer]\n" ++ b)

/-- The text `encodeAll` produces, block-structured: each rendered block
starts with the single newline `generate_peer_block` puts in front of its
banner, and there is no trailing newline. -/
def chainE : List RawBlock → Str
  | [] => []
  | b :: bs => '\n' :: (genCore b.name b.added_at b.body ++ chainE bs)

/-- The raw block `encodePeer` renders for a decoded record. -/
def recRaw (r : WgPeer) : RawBlock :=
  ⟨r.name, r.added_at,
    bodyOf r.public_key (pyHost r.allowed_ips) r.preshared_key r.endpoint⟩

/-- A record all of whose fields are non-empty single-line strings, whose
preshared key happens to contain the text `Endpoint = b`. -/
def rBad : WgPeer :=
  { name := sLit "evil", public_key := sLit "PK"
    allowed_ips := sLit "10.8.0.3/32", added_at := sLit "2024-01-10"
    endpoint := none, preshared_key := some (sLit "xEndpoint = b") }

/- ==== basic lemmas ==== -/

theorem dropPref_self_append (p r : Str) : dropPref p (p ++ r) = some r := by
  induction p with
  | nil => rfl
  | cons c cs ih => simp [dropPref, ih]

theorem dropPref_eq_some {p s r : Str} : dropPref p s = some r ↔ s = p ++ r := by
  constructor
  · intro h
    induction p generalizing s with
    | nil => simp [dropPref] at h; simp [h]
    | cons c cs ih =>
      cases s with
      | nil => simp [dropPref] at h
      | cons d ds =>
        by_cases hc : c = d
        · subst hc
          simp [dropPref] at h
          simpa using ih h
        · simp [dropPref, hc] at h
  · intro h; subst h; exact dropPref_self_append p r

/- ==== `get_used_ips` characterization ==== -/

theorem mem_used_aux (ps : List WgPeer) :
    ∀ (acc : List Nat) (x : Nat),
      (x ∈ ps.foldl
        (fun acc p =>
          match parseIPv4 (pyHost p.allowed_ips) with
          | some ip => acc ++ [ip]
          | none => acc) acc) ↔
      x ∈ acc ∨ ∃ p ∈ ps, parseIPv4 (pyHost p.allowed_ips) = some x := by
  induction ps with
  | nil => intro acc x; simp
  | cons p ps ih =>
    intro acc x
    simp only [List.foldl_cons]
    cases hp : parseIPv4 (pyHost p.allowed_ips) with
    | none =>
      rw [show (match (none : Option Nat) with
          | some ip => acc ++ [ip] | none => acc) = acc from rfl]
      rw [ih]
      constructor
      · rintro (h | ⟨q, hq, he⟩)
        · exact Or.inl h
        · exact Or.inr ⟨q, List.mem_cons_of_mem _ hq, he⟩
      · rintro (h | ⟨q, hq, he⟩)
        · exact Or.inl h
        · rcases List.mem_cons.mp hq with rfl | hq
          · rw [hp] at he; exact absurd he (by simp)
          · exact Or.inr ⟨q, hq, he⟩
    | some ip =>
      rw [show (match (some ip : Option Nat) with
          | some ip => acc ++ [ip] | none => acc) = acc ++ [ip] from rfl]
      rw [ih]
      constructor
      · rintro (h | ⟨q, hq, he⟩)
        · rcases List.mem_append.mp h with h | h
          · exact Or.inl h
          · simp at h; subst h
            exact Or.inr ⟨p, List.mem_cons_self _ _, hp⟩
        · exact Or.inr ⟨q, List.mem_cons_of_mem _ hq, he⟩
      · rintro (h | ⟨q, hq, he⟩)
        · exact Or.inl (List.mem_append.mpr (Or.inl h))
        · rcases List.mem_cons.mp hq with rfl | hq
          · rw [hp] at he
            simp at he; subst he
            exact Or.inl (List.mem_append.mpr (Or.inr (by simp)))
          · exact Or.inr ⟨q, hq, he⟩

theorem mem_get_used_ips (content : Str) (x : Nat) :
    x ∈ get_used_ips content ↔
      x = SERVER_IP ∨ ∃ p ∈ parse_peers content, parseIPv4 (pyHost p.allowed_ips) = some x := by
  unfold get_used_ips
  rw [mem_used_aux]
  simp

theorem find?_range'_spec {f : Nat → Bool} :
    ∀ (n s i : Nat), (List.range' s n).find? f = some i →
      s ≤ i ∧ i < s + n ∧ f i = true ∧ ∀ j, s ≤ j → j < i → f j = false := by
  intro n
  induction n with
  | zero => intro s i h; simp [List.range'] at h
  | succ n ih =>
    intro s i h
    rw [List.range'_succ] at h
    cases hf : f s with
    | true =>
      rw [List.find?_cons_of_pos _ hf] at h
      injection h with h; subst h
      exact ⟨Nat.le_refl _, by omega, hf, fun j h1 h2 => absurd h2 (by omega)⟩
    | false =>
      rw [List.find?_cons_of_neg _ (by simp [hf])] at h
      obtain ⟨h1, h2, h3, h4⟩ := ih (s + 1) i h
      refine ⟨by omega, by omega, h3, fun j hj1 hj2 => ?_⟩
      rcases Nat.eq_or_lt_of_le hj1 with rfl | hlt
      · exact hf
      · exact h4 j (by omega) hj2

/- ==== dict lemmas ==== -/

theorem dictGet_map_replace (k k' v : Str) (h : ¬ k = k') :
    ∀ m : List (Str × Str),
      dictGet (m.map (fun e => if e.1 = k' then (k', v) else e)) k = dictGet m k := by
  intro m
  induction m with
  | nil => rfl
  | cons e rest ih =>
    by_cases he : e.1 = k'
    · have h1 : ¬ (k' = k) := fun hh => h hh.symm
      have h2 : ¬ (e.1 = k) := by rw [he]; exact h1
      simp only [List.map_cons, if_pos he, dictGet, List.find?_cons]
      simp only [h1, h2, decide_eq_false_iff_not.mpr h2]
      simpa [dictGet] using ih
    · simp only [List.map_cons, if_neg he]
      by_cases h2 : e.1 = k
      · simp [dictGet, List.find?_cons, h2]
      · simp only [dictGet, List.find?_cons, h2]
        simpa [dictGet] using ih

theorem dictGet_append_single (k k' v : Str) (h : ¬ k = k') :
    ∀ m : List (Str × Str), dictGet (m ++ [(k', v)]) k = dictGet m k := by
  intro m
  induction m with
  | nil =>
    have h1 : ¬ (k' = k) := fun hh => h hh.symm
    simp [dictGet, List.find?_cons, h1]
  | cons e rest ih =>
    by_cases h2 : e.1 = k
    · simp [dictGet, List.find?_cons, h2]
    · simp only [List.cons_append, dictGet, List.find?_cons, h2]
      simpa [dictGet] using ih

theorem dictGet_map_self (k v : Str) :
    ∀ m : List (Str × Str), m.any (fun e => e.1 = k) = true →
      dictGet (m.map (fun e => if e.1 = k then (k, v) else e)) k = some v := by
  intro m
  induction m with
  | nil => intro h; simp at h
  | cons e rest ih =>
    intro h
    by_cases he : e.1 = k
    · simp [dictGet, List.find?_cons, he]
    · simp only [List.map_cons, if_neg he]
      simp only [dictGet, List.find?_cons, he]
      have : rest.any (fun e => e.1 = k) = true := by simpa [he] using h
      simpa [dictGet] using ih this

theorem dictGet_append_self (k v : Str) :
    ∀ m : List (Str × Str), m.any (fun e => e.1 = k) = false →
      dictGet (m ++ [(k, v)]) k = some v := by
  intro m
  induction m with
  | nil => intro _; simp [dictGet, List.find?_cons]
  | cons e rest ih =>
    intro h
    simp only [List.any_cons, Bool.or_eq_false_iff] at h
    have he : ¬ (e.1 = k) := by
      intro hh
      have := h.1; simp [hh] at this
    simp only [List.cons_append, dictGet, List.find?_cons, he]
    simpa [dictGet] using ih h.2

theorem dictGet_insert_self (m : List (Str × Str)) (k v : Str) :
    dictGet (dictInsert m k v) k = some v := by
  unfold dictInsert
  by_cases hany : m.any (fun e => e.1 = k)
  · simp only [hany, if_true]
    exact dictGet_map_self k v m hany
  · simp only [Bool.not_eq_true] at hany
    simp only [hany, Bool.false_eq_true, if_false]
    exact dictGet_append_self k v m hany

theorem dictGet_insert_other (m : List (Str × Str)) (k k' v : Str) (h : ¬ k = k') :
    dictGet (dictInsert m k' v) k = dictGet m k := by
  unfold dictInsert
  by_cases hany : m.any (fun e => e.1 = k')
  · simp only [hany, if_true]
    exact dictGet_map_replace k k' v h m
  · simp only [Bool.not_eq_true] at hany
    simp only [hany, Bool.false_eq_true, if_false]
    exact dictGet_append_single k k' v h m

/- ==== C2 ==== -/

/-- C2: for every content, the used-address set is exactly the root
`10.8.0.1` plus the parseable host portions of the peers' `allowed_ips`;
`get_next_available_ip` returns the numerically smallest `10.8.0.i` with
`2 ≤ i ≤ 254` outside that set (hence never the root, the network or the
broadcast address, nor any used address), and reports pool exhaustion
when every such offset is occupied; on the store with peers at `.5`,
`.6`, `.7` it returns `10.8.0.2`. -/
theorem claim_C2 (content : Str) :
    (∀ x, x ∈ get_used_ips content ↔
      x = SERVER_IP ∨ ∃ p ∈ parse_peers content, parseIPv4 (pyHost p.allowed_ips) = some x) ∧
    (∀ ip, get_next_available_ip content = .ok ip →
      (∃ i, 2 ≤ i ∧ i ≤ 254 ∧ ip = ipVal 10 8 0 i ∧
        ip ∉ get_used_ips content ∧
        ∀ j, 2 ≤ j → j < i → ipVal 10 8 0 j ∈ get_used_ips content) ∧
      ip ≠ SERVER_IP ∧ ip ≠ ipVal 10 8 0 0 ∧ ip ≠ ipVal 10 8 0 255) ∧
    ((∀ i, 2 ≤ i → i ≤ 254 → ipVal 10 8 0 i ∈ get_used_ips content) →
      get_next_available_ip content = .error .poolExhausted) ∧
    get_next_available_ip cStore567 = .ok (ipVal 10 8 0 2) := by
  refine ⟨mem_get_used_ips content, ?_, ?_, by decide⟩
  · intro ip h
    unfold get_next_available_ip at h
    cases hfind : (List.range' 2 253).find?
        (fun i => ¬ ipVal 10 8 0 i ∈ get_used_ips content) with
    | none => rw [hfind] at h; exact absurd h (by simp)
    | some i =>
      rw [hfind] at h
      injection h with h
      obtain ⟨h1, h2, h3, h4⟩ := find?_range'_spec 253 2 i hfind
      subst h
      have hni : ipVal 10 8 0 i ∉ get_used_ips content := by simpa using h3
      refine ⟨⟨i, h1, by omega, rfl, hni, fun j hj1 hj2 => ?_⟩, ?_, ?_, ?_⟩
      · have := h4 j hj1 hj2
        simpa using this
      · intro he
        exact hni (he ▸ (mem_get_used_ips content SERVER_IP).mpr (Or.inl rfl))
      · simp only [ipVal]; omega
      · simp only [ipVal]; omega
  · intro hall
    unfold get_next_available_ip
    cases hfind : (List.range' 2 253).find?
        (fun i => ¬ ipVal 10 8 0 i ∈ get_used_ips content) with
    | none => rfl
    | some i =>
      obtain ⟨h1, h2, h3, _⟩ := find?_range'_spec 253 2 i hfind
      have : ipVal 10 8 0 i ∉ get_used_ips content := by simpa using h3
      exact absurd (hall i h1 (by omega)) this

theorem claim_C2_witness :
    get_next_available_ip cStore567 = .ok (ipVal 10 8 0 2) ∧
    ((∃ i, 2 ≤ i ∧ i ≤ 254 ∧ ipVal 10 8 0 2 = ipVal 10 8 0 i ∧
        ipVal 10 8 0 2 ∉ get_used_ips cStore567 ∧
        ∀ j, 2 ≤ j → j < i → ipVal 10 8 0 j ∈ get_used_ips cStore567) ∧
      ipVal 10 8 0 2 ≠ SERVER_IP ∧ ipVal 10 8 0 2 ≠ ipVal 10 8 0 0 ∧
      ipVal 10 8 0 2 ≠ ipVal 10 8 0 255) :=
  ⟨(claim_C2 cStore567).2.2.2,
   (claim_C2 cStore567).2.1 _ (claim_C2 cStore567).2.2.2⟩

/- ==== C3 ==== -/

/-- C3 (amended): a name conflict (case-sensitive exact match) makes
`add` fail with the NameConflict condition and leaves the store
untouched; an address conflict (equal parsed host addresses) with no
name conflict makes it fail with the AddressConflict condition and
leaves the store untouched.  (When both conflicts hold the name check
runs first, so the reported condition is NameConflict — see the
counterexample.) -/
theorem claim_C3 (content name public_key assigned_ip added_at : Str)
    (ep psk : Option Str) :
    ((∃ p ∈ parse_peers content, p.name = name) →
      addPeerState (some content) name public_key assigned_ip added_at ep psk
        = (some content, .error .nameConflict)) ∧
    ((¬ ∃ p ∈ parse_peers content, p.name = name) →
      (∃ p ∈ parse_peers content,
        parseIPv4 (pyHost p.allowed_ips) = parseIPv4 (pyHost assigned_ip)) →
      (parseIPv4 (pyHost assigned_ip)).isSome = true →
      addPeerState (some content) name public_key assigned_ip added_at ep psk
        = (some content, .error .addressConflict)) := by
  constructor
  · rintro ⟨p, hp, hname⟩
    have hcn : check_name_conflict name content = true := by
      unfold check_name_conflict
      rw [List.any_eq_true]
      exact ⟨p, hp, by simp [hname]⟩
    simp [addPeerState, read_config, add_peer, hcn]
  · intro hn hip hsome
    have hcn : check_name_conflict name content = false := by
      cases hcb : check_name_conflict name content with
      | false => rfl
      | true =>
        unfold check_name_conflict at hcb
        rw [List.any_eq_true] at hcb
        obtain ⟨p, hp, he⟩ := hcb
        exact absurd ⟨p, hp, by simpa using he⟩ hn
    obtain ⟨v, hv⟩ := Option.isSome_iff_exists.mp hsome
    obtain ⟨p, hp, hpe⟩ := hip
    have hmem : v ∈ get_used_ips content :=
      (mem_get_used_ips content v).mpr (Or.inr ⟨p, hp, by rw [hpe, hv]⟩)
    have hcc : check_ip_conflict assigned_ip content = .ok true := by
      unfold check_ip_conflict
      rw [hv]
      simp [hmem]
    simp [addPeerState, read_config, add_peer, hcn, hcc]

/-- C3, counterexample to the claim as stated: on a store holding peer
"a" at `10.8.0.2`, adding name "a" with address `10.8.0.2` has an
existing record whose host address equals the requested host portion,
yet the call fails with the NameConflict condition, not AddressConflict
(the name check runs first). -/
theorem claim_C3_counterexample :
    (∃ p ∈ parse_peers cStoreA,
      parseIPv4 (pyHost p.allowed_ips) = parseIPv4 (pyHost (sLit "10.8.0.2"))) ∧
    (parseIPv4 (pyHost (sLit "10.8.0.2"))).isSome = true ∧
    addPeerState (some cStoreA) (sLit "a") (sLit "K9") (sLit "10.8.0.2")
        (sLit "2024-02-02") none none
      = (some cStoreA, .error .nameConflict) ∧
    WgError.nameConflict ≠ WgError.addressConflict := by
  refine ⟨?_, by decide, by decide, by decide⟩
  exact ⟨specPeer specA2, by decide, by decide⟩

theorem claim_C3_witness :
    ((∃ p ∈ parse_peers cStoreA, p.name = sLit "a") ∧
      addPeerState (some cStoreA) (sLit "a") (sLit "K9") (sLit "10.8.0.3")
          (sLit "2024-02-02") none none
        = (some cStoreA, .error .nameConflict)) ∧
    ((¬ ∃ p ∈ parse_peers cStoreA, p.name = sLit "b") ∧
      addPeerState (some cStoreA) (sLit "b") (sLit "K9") (sLit "10.8.0.2")
          (sLit "2024-02-02") none none
        = (some cStoreA, .error .addressConflict)) :=
  ⟨⟨⟨specPeer specA2, by decide, by decide⟩,
    (claim_C3 cStoreA (sLit "a") (sLit "K9") (sLit "10.8.0.3") (sLit "2024-02-02")
        none none).1 ⟨specPeer specA2, by decide, by decide⟩⟩,
   ⟨by decide,
    (claim_C3 cStoreA (sLit "b") (sLit "K9") (sLit "10.8.0.2") (sLit "2024-02-02")
        none none).2 (by decide)
      ⟨specPeer specA2, by decide, by decide⟩ (by decide)⟩⟩

/- ==== C6 ==== -/

/-- C6: with the backing file absent, the list endpoint returns an empty
sequence while `add` and `remove` fail with the store-not-found
condition and perform no write; an empty-but-present store behaves
differently: list is empty, but `add` succeeds (and writes) and `remove`
reports false without raising. -/
theorem claim_C6 (name public_key assigned_ip added_at n : Str)
    (ep psk : Option Str) :
    listPeersEndpoint none = [] ∧
    addPeerState none name public_key assigned_ip added_at ep psk
      = (none, .error .storeNotFound) ∧
    removePeerState none n = (none, .error .storeNotFound) ∧
    listPeersEndpoint (some []) = [] ∧
    addPeerState (some []) (sLit "a") (sLit "K") (sLit "10.8.0.2") (sLit "d") none none
      = (some ('\n' ::
          (generate_peer_block (sLit "a") (sLit "K") (sLit "10.8.0.2") (sLit "d")
            none none ++ ['\n'])), .ok ()) ∧
    removePeerState (some []) n = (some [], .ok false) := by
  refine ⟨rfl, rfl, rfl, rfl, by decide, ?_⟩
  simp [removePeerState, read_config, remove_peer, subnGo]

/- ==== C7 ==== -/

/-- C7: `resolve_query` answers only address-record (A) queries; it
lower-cases the name and strips trailing dots, answers nothing when the
configured suffix does not match, and otherwise strips the suffix and
looks the remainder up in the name-to-address mapping (peer list plus
the fixed "server"/"gateway" aliases).  On the store with peer
"home-nas" at `.6` and suffix `.vpn.example.com` the four spelled-out
queries behave as stated. -/
theorem claim_C7 :
    (∀ suffix fs qname qtype, qtype ≠ QTYPE_A →
      resolve_query suffix fs qname qtype = none) ∧
    (∀ suffix fs qname,
      suffix.isSuffixOf (rstripDots (pyLower qname)) = false →
      resolve_query suffix fs qname QTYPE_A = none) ∧
    (∀ suffix fs qname,
      suffix.isSuffixOf (rstripDots (pyLower qname)) = true →
      resolve_query suffix fs qname QTYPE_A =
        dictGet (get_name_to_ip_mapping fs)
          (pySliceToNeg (rstripDots (pyLower qname)) suffix.length)) ∧
    resolve_query (sLit ".vpn.example.com") (some cStoreDNS)
      (sLit "home-nas.vpn.example.com") QTYPE_A = some (sLit "10.8.0.6") ∧
    resolve_query (sLit ".vpn.example.com") (some cStoreDNS)
      (sLit "unknown.vpn.example.com") QTYPE_A = none ∧
    resolve_query (sLit ".vpn.example.com") (some cStoreDNS)
      (sLit "home-nas.other.com") QTYPE_A = none ∧
    resolve_query (sLit ".vpn.example.com") (some cStoreDNS)
      (sLit "server.vpn.example.com") QTYPE_A = some (sLit "10.8.0.1") := by
  refine ⟨?_, ?_, ?_, by decide, by decide, by decide, by decide⟩
  · intro suffix fs qname qtype h
    simp [resolve_query, h]
  · intro suffix fs qname h
    simp [resolve_query, h]
  · intro suffix fs qname h
    simp [resolve_query, h]

theorem claim_C7_witness :
    resolve_query (sLit ".vpn.example.com") (some cStoreDNS)
      (sLit "home-nas.vpn.example.com") 16 = none ∧
    resolve_query (sLit ".vpn.example.com") (some cStoreDNS)
      (sLit "home-nas.other.com") QTYPE_A = none ∧
    resolve_query (sLit ".vpn.example.com") (some cStoreDNS)
      (sLit "home-nas.vpn.example.com") QTYPE_A =
      dictGet (get_name_to_ip_mapping (some cStoreDNS))
        (pySliceToNeg (rstripDots (pyLower (sLit "home-nas.vpn.example.com")))
          (sLit ".vpn.example.com").length) :=
  ⟨claim_C7.1 _ _ _ 16 (by decide),
   claim_C7.2.1 _ _ _ (by decide),
   claim_C7.2.2.1 _ _ _ (by decide)⟩

/- ==== C10 ==== -/

/-- C10: the fixed "server" and "gateway" aliases are written into the
mapping after the peer entries, so they always map to the root
`10.8.0.1`, for every store; in particular a registered peer named
"Server" at `10.8.0.9` is shadowed and the query resolves to the root,
not to `10.8.0.9`. -/
theorem claim_C10 (fs : ConfStore) :
    dictGet (get_name_to_ip_mapping fs) (sLit "server") = some (sLit "10.8.0.1") ∧
    dictGet (get_name_to_ip_mapping fs) (sLit "gateway") = some (sLit "10.8.0.1") ∧
    (parse_peers cStoreShadow).map (fun p => p.name) = [sLit "Server"] ∧
    (parse_peers cStoreShadow).map (fun p => p.allowed_ips) = [sLit "10.8.0.9/32"] ∧
    resolve_query (sLit ".vpn.example.com") (some cStoreShadow)
      (sLit "server.vpn.example.com") QTYPE_A = some (sLit "10.8.0.1") ∧
    resolve_query (sLit ".vpn.example.com") (some cStoreShadow)
      (sLit "SERVER.vpn.example.com") QTYPE_A = some (sLit "10.8.0.1") ∧
    some (sLit "10.8.0.1") ≠ some (sLit "10.8.0.9") := by
  refine ⟨?_, ?_, by decide, by decide, by decide, by decide, by decide⟩
  · unfold get_name_to_ip_mapping
    rw [dictGet_insert_other _ _ _ _ (by decide)]
    exact dictGet_insert_self _ _ _
  · exact dictGet_insert_self _ _ _

/- ==== occurrence toolkit ==== -/

theorem dropPref_isSome_iff {p s : Str} : (dropPref p s).isSome = true ↔ p <+: s := by
  constructor
  · intro h
    obtain ⟨r, hr⟩ := Option.isSome_iff_exists.mp h
    exact ⟨r, (dropPref_eq_some.mp hr).symm⟩
  · rintro ⟨r, hr⟩
    rw [show s = p ++ r from hr.symm, dropPref_self_append]
    rfl

theorem dropPref_length {p s r : Str} (h : dropPref p s = some r) :
    s.length = p.length + r.length := by
  rw [dropPref_eq_some.mp h, List.length_append]

theorem dropWhile_len_le (p : Char → Bool) (l : Str) :
    (l.dropWhile p).length ≤ l.length := by
  induction l with
  | nil => simp
  | cons c cs ih =>
    by_cases h : p c
    · rw [List.dropWhile_cons_of_pos h]; exact Nat.le_succ_of_le ih
    · rw [List.dropWhile_cons_of_neg h]

theorem mem_of_getLast? {l : Str} {c : Char} (h : l.getLast? = some c) : c ∈ l := by
  rw [List.getLast?_eq_head?_reverse] at h
  have : c ∈ l.reverse := by
    cases hr : l.reverse with
    | nil => rw [hr] at h; simp at h
    | cons d ds => rw [hr] at h; simp at h; simp [h]
  simpa using this

theorem noSub_iff {p s : Str} : noSubB p s = true ↔ noSub p s := by
  induction s with
  | nil =>
    simp only [noSubB, noSub, List.drop_nil, Option.isNone_iff_eq_none]
    constructor
    · intro h j; exact h
    · intro h; exact h 0
  | cons c cs ih =>
    simp only [noSubB, Bool.and_eq_true, Option.isNone_iff_eq_none, ih]
    constructor
    · rintro ⟨h0, hrest⟩ j
      cases j with
      | zero => exact h0
      | succ j => exact hrest j
    · intro h
      exact ⟨h 0, fun j => h (j + 1)⟩

theorem noSub_nil {p : Str} (hp : p ≠ []) : noSub p [] := by
  intro j
  cases p with
  | nil => exact absurd rfl hp
  | cons a as => simp [dropPref]

/-- A short suffix of `a` that begins an occurrence of `p` crossing into
`b` determines a split of `p`. -/
theorem straddle_split {p s b r : Str} (hs : s.length < p.length)
    (h : dropPref p (s ++ b) = some r) :
    s = p.take s.length ∧ dropPref (p.drop s.length) b = some r := by
  have he := dropPref_eq_some.mp h
  constructor
  · have h2 := congrArg (List.take s.length) he
    rw [List.take_append_eq_append_take] at h2
    simp at h2
    rw [List.take_append_eq_append_take,
      Nat.sub_eq_zero_of_le (Nat.le_of_lt hs)] at h2
    simpa using h2
  · apply dropPref_eq_some.mpr
    have h2 := congrArg (List.drop s.length) he
    rw [List.drop_append_eq_append_drop] at h2
    simp at h2
    rw [List.drop_append_eq_append_drop,
      Nat.sub_eq_zero_of_le (Nat.le_of_lt hs)] at h2
    simpa using h2

theorem pre_take_of_dropPref {p s b r : Str} (hlen : p.length ≤ s.length)
    (h : dropPref p (s ++ b) = some r) : ∃ r2, dropPref p s = some r2 := by
  have he := dropPref_eq_some.mp h
  have h2 := congrArg (List.take p.length) he
  rw [List.take_append_eq_append_take, Nat.sub_eq_zero_of_le hlen,
    List.take_append_eq_append_take, Nat.sub_self] at h2
  simp at h2
  refine ⟨s.drop p.length, dropPref_eq_some.mpr ?_⟩
  conv_lhs => rw [← List.take_append_drop p.length s]
  rw [h2]

/-- Occurrence failure at every offset inside `a` of `a ++ b`, from
freedom inside `a` and a head condition on `b` blocking straddles. -/
theorem noOcc_head {p a b : Str} (hp : p ≠ []) (ha : noSub p a)
    (hd : ∀ e, b.head? = some e → e ∉ p.drop 1) :
    ∀ j, j < a.length → dropPref p (a.drop j ++ b) = none := by
  intro j hj
  cases hdp : dropPref p (a.drop j ++ b) with
  | none => rfl
  | some r =>
    exfalso
    by_cases hlen : p.length ≤ (a.drop j).length
    · obtain ⟨r2, hr2⟩ := pre_take_of_dropPref hlen hdp
      exact absurd hr2 (by rw [ha j]; simp)
    · push_neg at hlen
      obtain ⟨h1, h2⟩ := straddle_split hlen hdp
      have hne : p.drop (a.drop j).length ≠ [] := by
        intro hcn
        have hlc := congrArg List.length hcn
        rw [List.length_drop] at hlc
        simp at hlc
        have hd2 : (a.drop j).length = a.length - j := List.length_drop j a
        omega
      cases hpd : p.drop (a.drop j).length with
      | nil => exact hne hpd
      | cons e es =>
        have hb : b.head? = some e := by
          rw [dropPref_eq_some.mp h2, hpd]
          simp
        apply hd e hb
        have h5 : e ∈ p.drop (a.drop j).length := by rw [hpd]; simp
        have hj1 : 1 ≤ (a.drop j).length := by
          rw [List.length_drop]
          omega
        have hsub : p.drop (a.drop j).length ⊆ p.drop 1 := by
          intro x hx
          have hdd := List.drop_subset ((a.drop j).length - 1) (p.drop 1)
          rw [List.drop_drop,
            show 1 + ((a.drop j).length - 1) = (a.drop j).length by omega] at hdd
          exact hdd hx
        exact hsub h5

/-- As `noOcc_head`, but blocking straddles by the last character of `a`
not occurring in `p`. -/
theorem noOcc_last {p a b : Str} (hp : p ≠ []) (ha : noSub p a)
    {c : Char} (hl : a.getLast? = some c) (hc : c ∉ p) :
    ∀ j, j < a.length → dropPref p (a.drop j ++ b) = none := by
  intro j hj
  cases hdp : dropPref p (a.drop j ++ b) with
  | none => rfl
  | some r =>
    exfalso
    by_cases hlen : p.length ≤ (a.drop j).length
    · obtain ⟨r2, hr2⟩ := pre_take_of_dropPref hlen hdp
      exact absurd hr2 (by rw [ha j]; simp)
    · push_neg at hlen
      obtain ⟨h1, _⟩ := straddle_split hlen hdp
      apply hc
      have hne : a.drop j ≠ [] := by
        intro hcn
        have := congrArg List.length hcn
        simp at this
        omega
      have hlast : (a.drop j).getLast? = some c := by
        have hsuf : a.drop j <:+ a := List.drop_suffix j a
        obtain ⟨t, ht⟩ := hsuf
        rw [← ht] at hl
        rw [List.getLast?_append] at hl
        cases hg : (a.drop j).getLast? with
        | none => rw [List.getLast?_eq_none_iff] at hg; exact absurd hg hne
        | some d => rw [hg] at hl; simp at hl; rw [hl]
      have : c ∈ a.drop j := mem_of_getLast? hlast
      rw [h1] at this
      exact List.take_subset _ _ this

/-- Assemble `noSub` over an append from per-offset failures on the left
part and freedom on the right part. -/
theorem noSub_append_of {p a b : Str}
    (h1 : ∀ j, j < a.length → dropPref p (a.drop j ++ b) = none)
    (hb : noSub p b) : noSub p (a ++ b) := by
  intro j
  by_cases hj : j < a.length
  · rw [List.drop_append_of_le_length (Nat.le_of_lt hj)]
    exact h1 j hj
  · push_neg at hj
    rw [show j = a.length + (j - a.length) by omega, List.drop_append]
    exact hb _

theorem noSub_append_head {p a b : Str} (hp : p ≠ []) (ha : noSub p a)
    (hb : noSub p b) (hd : ∀ e, b.head? = some e → e ∉ p.drop 1) :
    noSub p (a ++ b) :=
  noSub_append_of (noOcc_head hp ha hd) hb

theorem noSub_append_last' {p a b : Str} (hp : p ≠ []) (ha : noSub p a)
    (hb : noSub p b) {c : Char} (hl : a.getLast? = some c) (hc : c ∉ p) :
    noSub p (a ++ b) :=
  noSub_append_of (noOcc_last hp ha hl hc) hb

theorem noSub_of_head_notin {c : Char} {ps b : Str} (h : c ∉ b) :
    noSub (c :: ps) b := by
  intro j
  cases hb : b.drop j with
  | nil => simp [dropPref]
  | cons d ds =>
    have : d ∈ b := List.mem_of_mem_drop (by rw [hb]; simp)
    have hcd : ¬ (c = d) := fun he => h (he ▸ this)
    simp [dropPref, hcd]

theorem noSub_of_append_left {p a b : Str} (hp : p ≠ [])
    (h : noSub p (a ++ b)) : noSub p a := by
  intro j
  by_cases hj : j < a.length
  · cases hdp : dropPref p (a.drop j) with
    | none => rfl
    | some r =>
      exfalso
      have := dropPref_eq_some.mp hdp
      have h2 : dropPref p ((a ++ b).drop j) = some (r ++ b) := by
        rw [List.drop_append_of_le_length (Nat.le_of_lt hj), this]
        exact dropPref_eq_some.mpr (by simp)
      rw [h j] at h2
      exact absurd h2 (by simp)
  · push_neg at hj
    rw [List.drop_of_length_le hj]
    exact noSub_nil hp 0

/- ==== matcher computation lemmas ==== -/

theorem dropWhileEq_replicate (n : Nat) (r : Str) :
    List.dropWhile (fun c => c = '=') (List.replicate n '=' ++ '\n' :: r) = '\n' :: r := by
  induction n with
  | zero => simp [List.dropWhile]
  | succ m ih => rw [List.replicate_succ, List.cons_append]; simpa [List.dropWhile] using ih

theorem eqRunNl_replicate (k : Nat) (hk : 1 ≤ k) (r : Str) :
    eqRunNl (List.replicate k '=' ++ '\n' :: r) = some r := by
  obtain ⟨k', rfl⟩ : ∃ k', k = k' + 1 := ⟨k - 1, by omega⟩
  rw [List.replicate_succ, List.cons_append]
  show eqRunNl ('=' :: (List.replicate k' '=' ++ '\n' :: r)) = some r
  simp [eqRunNl, dropWhileEq_replicate]

theorem groupTail_none_of_head {t : Str} (h : t.head? ≠ some '\n') :
    groupTail t = none := by
  cases t with
  | nil => rfl
  | cons c cs =>
    have hc : ¬ ('\n' = c) := fun he => h (by rw [← he]; rfl)
    simp [groupTail, dropPref, sLit, hc]

theorem matchHdrEnd_none_of_head {t : Str} (h : t.head? ≠ some '\n') :
    matchHdrEnd t = none := by
  cases t with
  | nil => rfl
  | cons c cs =>
    have hc : ¬ ('\n' = c) := fun he => h (by rw [← he]; rfl)
    simp [matchHdrEnd, dropPref, sLit, hc]

theorem lazyPlus_exact {α : Type} (p : Str → Option α) :
    ∀ (g t : Str) (a : α), g ≠ [] →
      (∀ j, 0 < j → j < g.length → p (g.drop j ++ t) = none) →
      p t = some a → lazyPlus p (g ++ t) = some (g, a) := by
  intro g
  induction g with
  | nil => intro t a h; exact absurd rfl h
  | cons c g' ih =>
    intro t a _ hfail hp
    cases g' with
    | nil =>
      show lazyPlus p (c :: t) = some ([c], a)
      simp [lazyPlus, hp]
    | cons d g'' =>
      show lazyPlus p (c :: ((d :: g'') ++ t)) = some (c :: (d :: g''), a)
      have h1 : p ((d :: g'') ++ t) = none := by
        have := hfail 1 (by omega) (by simp)
        simpa using this
      have h2 : lazyPlus p ((d :: g'') ++ t) = some (d :: g'', a) := by
        apply ih t a (by simp) ?_ hp
        intro j hj hjl
        have h3 := hfail (j + 1) (by omega)
          (by simp only [List.length_cons] at hjl ⊢; omega)
        simpa using h3
      rw [List.cons_append] at h1 h2
      show lazyPlus p (c :: (d :: (g'' ++ t))) = some (c :: d :: g'', a)
      conv_lhs => rw [lazyPlus]
      rw [h1]
      simp [h2]

theorem lazyStarBanner_exact :
    ∀ (g t : Str),
      (∀ j, j < g.length → dropPref (sLit "\n# =") (g.drop j ++ t) = none) →
      (t = [] ∨ (dropPref (sLit "\n# =") t).isSome = true) →
      lazyStarBanner (g ++ t) = (g, t) := by
  intro g
  induction g with
  | nil =>
    intro t _ ht
    rcases ht with rfl | ht
    · rfl
    · cases t with
      | nil => rfl
      | cons c cs =>
        show lazyStarBanner (c :: cs) = ([], c :: cs)
        rw [lazyStarBanner]
        simp [ht]
  | cons c g' ih =>
    intro t hno ht
    show lazyStarBanner (c :: (g' ++ t)) = (c :: g', t)
    have h0 : dropPref (sLit "\n# =") ((c :: g') ++ t) = none := by
      simpa using hno 0 (by simp)
    rw [lazyStarBanner]
    rw [List.cons_append] at h0
    simp only [h0, Option.isSome_none, Bool.false_eq_true, if_false]
    have h2 := ih t (fun j hj => by simpa using hno (j + 1) (by simp; omega)) ht
    rw [h2]

/- ==== length and fuel lemmas ==== -/

theorem eqRunNl_length {s r : Str} (h : eqRunNl s = some r) : r.length < s.length := by
  unfold eqRunNl at h
  split at h
  · rename_i rest
    split at h
    · rename_i r2 hd
      injection h with h
      have h1 : ('\n' :: r2).length ≤ rest.length := by
        rw [← hd]; exact dropWhile_len_le _ _
      subst h
      simp at h1 ⊢
      omega
    · exact absurd h (by simp)
  · exact absurd h (by simp)

theorem lazyPlus_inv {α : Type} {p : Str → Option α} :
    ∀ {s g : Str} {a : α}, lazyPlus p s = some (g, a) →
      ∃ t, t.length < s.length ∧ p t = some a := by
  intro s
  induction s with
  | nil => intro g a h; simp [lazyPlus] at h
  | cons c cs ih =>
    intro g a h
    rw [lazyPlus] at h
    cases hp : p cs with
    | some a' =>
      rw [hp] at h
      simp at h
      exact ⟨cs, by simp, by rw [hp, h.2]⟩
    | none =>
      rw [hp] at h
      cases hl : lazyPlus p cs with
      | some ga =>
        obtain ⟨g', a'⟩ := ga
        rw [hl] at h
        simp at h
        obtain ⟨t, ht1, ht2⟩ := ih hl
        exact ⟨t, by simp; omega, by rw [ht2, h.2]⟩
      | none => rw [hl] at h; simp at h

theorem lazyStarBanner_rest_le : ∀ (s : Str), (lazyStarBanner s).2.length ≤ s.length := by
  intro s
  induction s with
  | nil => simp [lazyStarBanner]
  | cons c cs ih =>
    rw [lazyStarBanner]
    split
    · simp
    · cases hl : lazyStarBanner cs with
      | mk g r => rw [hl] at ih; simp at ih ⊢; omega

theorem matchHdrEnd_length {s r : Str} (h : matchHdrEnd s = some r) :
    r.length < s.length := by
  unfold matchHdrEnd at h
  split at h
  · exact absurd h (by simp)
  · rename_i s1 h1
    split at h
    · exact absurd h (by simp)
    · rename_i s2 h2
      have e1 := dropPref_length h1
      have e2 := eqRunNl_length h2
      have e3 := dropPref_length h
      simp [sLit] at e1 e3
      omega

theorem groupTail_rest_length {t d b r : Str} (h : groupTail t = some (d, b, r)) :
    r.length < t.length := by
  unfold groupTail at h
  split at h
  · exact absurd h (by simp)
  · rename_i t1 h1
    split at h
    · exact absurd h (by simp)
    · rename_i date t2 h2
      split at h
      rename_i block rest hlz
      simp at h
      obtain ⟨hd1, hd2, hd3⟩ := h
      subst hd3
      obtain ⟨t', ht1, ht2⟩ := lazyPlus_inv h2
      have e1 := dropPref_length h1
      have e2 := matchHdrEnd_length ht2
      have e3 : rest.length ≤ t2.length := by
        have h4 := lazyStarBanner_rest_le t2
        rw [hlz] at h4
        simpa using h4
      simp [sLit] at e1
      omega

theorem matchPeerAt_rest_length {s n d b r : Str}
    (h : matchPeerAt s = some (n, d, b, r)) : r.length < s.length := by
  unfold matchPeerAt at h
  split at h
  · exact absurd h (by simp)
  · rename_i s1 h1
    split at h
    · exact absurd h (by simp)
    · rename_i s2 h2
      split at h
      · exact absurd h (by simp)
      · rename_i s3 h3
        split at h
        · exact absurd h (by simp)
        · rename_i name date block rest hq
          simp at h
          obtain ⟨he1, he2, he3, he4⟩ := h
          subst he4
          obtain ⟨t', ht1, ht2⟩ := lazyPlus_inv hq
          have e0 := groupTail_rest_length ht2
          have e1 := dropPref_length h1
          have e2 := eqRunNl_length h2
          have e3 := dropPref_length h3
          simp [sLit] at e1 e3
          omega

theorem scanGo_fuel : ∀ (f : Nat) (s : Str) (flag : Bool), s.length < f →
    scanGo f s flag = scanGo (s.length + 1) s flag := by
  intro f
  induction f using Nat.strong_induction_on with
  | _ f ih =>
    intro s flag hf
    match f, hf with
    | f' + 1, hf =>
      cases s with
      | nil => rfl
      | cons c cs =>
        have hlen : cs.length + 1 < f' + 1 := by simpa using hf
        rw [show (c :: cs).length + 1 = (cs.length + 1) + 1 from by simp]
        cases flag with
        | false =>
          rw [scanGo, scanGo]
          rw [ih f' (by omega) cs _ (by omega),
            ih (cs.length + 1) (by omega) cs _ (by omega)]
        | true =>
          rw [scanGo, scanGo]
          cases hm : matchPeerAt (c :: cs) with
          | some q =>
            obtain ⟨n, d, b, r⟩ := q
            have hr : r.length < (c :: cs).length := matchPeerAt_rest_length hm
            simp only [List.length_cons] at hr
            dsimp only
            congr 1
            rw [ih f' (by omega) r _ (by omega),
              ih (cs.length + 1) (by omega) r _ (by omega)]
          | none =>
            dsimp only
            rw [ih f' (by omega) cs _ (by omega),
              ih (cs.length + 1) (by omega) cs _ (by omega)]

/- ==== matching a rendered block ==== -/

theorem bannerLine_eq : bannerLine = sLit "# " ++ List.replicate 42 '=' := rfl

theorem head_drop_append_ne {a : Str} {j : Nat} (hj : j < a.length)
    (hm : '\n' ∉ a) (X : Str) : (a.drop j ++ X).head? ≠ some '\n' := by
  cases hd : a.drop j with
  | nil =>
    exfalso
    have := congrArg List.length hd
    rw [List.length_drop] at this
    simp at this
    omega
  | cons e es =>
    have he : e ∈ a := List.mem_of_mem_drop (by rw [hd]; simp)
    simp only [List.cons_append, List.head?_cons]
    intro hc
    injection hc with hc
    exact hm (hc ▸ he)

theorem matchHdrEnd_block (body T : Str) :
    matchHdrEnd ('\n' :: (bannerLine ++ (sLit "\n[Peer]\n" ++ (body ++ T))))
      = some (body ++ T) := by
  have e1 : '\n' :: (bannerLine ++ (sLit "\n[Peer]\n" ++ (body ++ T)))
      = sLit "\n# " ++ (List.replicate 42 '=' ++
          ('\n' :: (sLit "[Peer]\n" ++ (body ++ T)))) := rfl
  rw [e1]
  simp only [matchHdrEnd, dropPref_self_append, eqRunNl_replicate 42 (by omega)]

theorem matchPeerAt_genCore {name date body T C R : Str}
    (hn1 : name ≠ []) (hn2 : '\n' ∉ name)
    (hd1 : date ≠ []) (hd2 : '\n' ∉ date)
    (hlz : lazyStarBanner (body ++ T) = (C, R)) :
    matchPeerAt (genCore name date body ++ T) = some (name, date, C, R) := by
  have hgt : groupTail (sLit "\n# AddedAt: " ++ (date ++ ('\n' ::
      (bannerLine ++ (sLit "\n[Peer]\n" ++ (body ++ T)))))) = some (date, C, R) := by
    have hlp : lazyPlus matchHdrEnd (date ++ ('\n' ::
        (bannerLine ++ (sLit "\n[Peer]\n" ++ (body ++ T))))) = some (date, body ++ T) := by
      apply lazyPlus_exact _ _ _ _ hd1 ?_ (matchHdrEnd_block body T)
      intro j hj hjl
      apply matchHdrEnd_none_of_head
      exact head_drop_append_ne hjl hd2 _
    simp only [groupTail, dropPref_self_append, hlp, hlz]
  have e0 : genCore name date body ++ T =
      sLit "# " ++ (List.replicate 42 '=' ++ ('\n' :: (sLit "# ClientName: " ++
        (name ++ (sLit "\n# AddedAt: " ++ (date ++ ('\n' :: (bannerLine ++
          (sLit "\n[Peer]\n" ++ (body ++ T)))))))))) := by
    simp only [genCore, bannerLine_eq, List.append_assoc, List.cons_append]
  rw [e0]
  have hlp2 : lazyPlus groupTail (name ++ (sLit "\n# AddedAt: " ++ (date ++ ('\n' ::
      (bannerLine ++ (sLit "\n[Peer]\n" ++ (body ++ T))))))) = some (name, (date, C, R)) := by
    apply lazyPlus_exact _ _ _ _ hn1 ?_ hgt
    intro j hj hjl
    apply groupTail_none_of_head
    exact head_drop_append_ne hjl hn2 _
  simp only [matchPeerAt, dropPref_self_append, eqRunNl_replicate 42 (by omega), hlp2]

/- ==== scanning a canonical store ==== -/

theorem matchPeerAt_nl (x : Str) : matchPeerAt ('\n' :: x) = none := by
  simp [matchPeerAt, sLit, dropPref]

theorem scanGo_cons_nl (x : Str) (flag : Bool) (f : Nat) :
    scanGo (f + 1) ('\n' :: x) flag = scanGo f x true := by
  cases flag with
  | true => rw [scanGo, matchPeerAt_nl]; simp
  | false => rw [scanGo]; simp

theorem sLit_bpn_cons (W : Str) : sLit "\n# =" ++ W = '\n' :: '#' :: ' ' :: '=' :: W := rfl

theorem bpn_pre_genCore (n d b Y : Str) :
    (dropPref (sLit "\n# =") ('\n' :: (genCore n d b ++ Y))).isSome = true := by
  have e : '\n' :: (genCore n d b ++ Y) = sLit "\n# =" ++
      (List.replicate 41 '=' ++ ('\n' :: ((sLit "# ClientName: " ++ n ++
        sLit "\n# AddedAt: " ++ d ++ '\n' :: (bannerLine ++ sLit "\n[Peer]\n" ++ b)) ++ Y))) := by
    rw [sLit_bpn_cons]
    simp only [genCore, bannerLine_eq,
      show List.replicate 42 '=' = '=' :: List.replicate 41 '=' from rfl,
      List.append_assoc, List.cons_append]
    rfl
  rw [e, dropPref_self_append]
  rfl

theorem noSub_bpn_body_nl {body : Str} (hb : noSub (sLit "\n# =") body) :
    noSub (sLit "\n# =") (body ++ ['\n']) := by
  apply noSub_append_head (by decide) hb (noSub_iff.mp (by decide))
  intro e he
  simp at he
  subst he
  decide

theorem lazyStar_body_chainN (body : Str) (bs : List RawBlock)
    (hb : noSub (sLit "\n# =") body) :
    lazyStarBanner (body ++ chainN bs) = (body ++ ['\n'], (chainN bs).drop 1) := by
  cases bs with
  | nil =>
    have h := lazyStarBanner_exact (body ++ ['\n']) []
      (fun j hj => by simpa using noSub_bpn_body_nl hb j) (Or.inl rfl)
    simp only [List.append_nil] at h
    have e : body ++ chainN [] = body ++ ['\n'] := rfl
    rw [e, h]
    rfl
  | cons b' bs' =>
    have e : body ++ chainN (b' :: bs') = (body ++ ['\n']) ++
        ('\n' :: (genCore b'.name b'.added_at b'.body ++ chainN bs')) := by
      simp [chainN]
    rw [e]
    have h := lazyStarBanner_exact (body ++ ['\n'])
      ('\n' :: (genCore b'.name b'.added_at b'.body ++ chainN bs'))
      (fun j hj => noOcc_head (by decide) (noSub_bpn_body_nl hb)
        (fun e2 he => by simp at he; subst he; decide) j hj)
      (Or.inr (bpn_pre_genCore b'.name b'.added_at b'.body (chainN bs')))
    rw [h]
    simp [chainN]

theorem wfRaw_dest {b : RawBlock} (h : WfRawB b = true) :
    b.name ≠ [] ∧ '\n' ∉ b.name ∧ b.added_at ≠ [] ∧ '\n' ∉ b.added_at ∧
    noSub (sLit "\n# =") b.body := by
  simp only [WfRawB, WfHdrB, Bool.and_eq_true, decide_eq_true_eq,
    List.all_eq_true] at h
  obtain ⟨⟨⟨h1, h2⟩, h3, h4⟩, h5⟩ := h
  refine ⟨h1, ?_, h3, ?_, noSub_iff.mp h5⟩
  · intro hm; have := h2 _ hm; simp at this
  · intro hm; have := h4 _ hm; simp at this

theorem scanGo_step_match {s n d bb r : Str}
    (hm : matchPeerAt s = some (n, d, bb, r)) (hs : s ≠ []) :
    scanGo (s.length + 1) s true
      = (n, d, bb) :: scanGo (r.length + 1) r (bb.getLastD '\n' = '\n') := by
  cases s with
  | nil => exact absurd rfl hs
  | cons c cs =>
    rw [show (c :: cs).length + 1 = cs.length + 1 + 1 from by simp]
    rw [scanGo, hm]
    dsimp only
    have hr : r.length < cs.length + 1 := by
      have := matchPeerAt_rest_length hm
      simpa using this
    rw [scanGo_fuel (cs.length + 1) r _ hr]

theorem scanGo_chainN : ∀ (bs : List RawBlock),
    (∀ b ∈ bs, WfRawB b = true) →
    (∀ flag, scanGo ((chainN bs).length + 1) (chainN bs) flag
        = bs.map (fun b => (b.name, b.added_at, b.body ++ ['\n']))) ∧
    (∀ flag, scanGo (((chainN bs).drop 1).length + 1) ((chainN bs).drop 1) flag
        = bs.map (fun b => (b.name, b.added_at, b.body ++ ['\n']))) := by
  intro bs
  induction bs with
  | nil =>
    intro _
    constructor
    · intro flag; cases flag <;> rfl
    · intro flag; cases flag <;> rfl
  | cons b bs ih =>
    intro hwf
    obtain ⟨hn1, hn2, hd1, hd2, hbody⟩ := wfRaw_dest (hwf b (by simp))
    obtain ⟨ih1, ih2⟩ := ih (fun x hx => hwf x (by simp [hx]))
    have hm : matchPeerAt (genCore b.name b.added_at b.body ++ chainN bs)
        = some (b.name, b.added_at, b.body ++ ['\n'], (chainN bs).drop 1) :=
      matchPeerAt_genCore hn1 hn2 hd1 hd2 (lazyStar_body_chainN b.body bs hbody)
    have hne : genCore b.name b.added_at b.body ++ chainN bs ≠ [] := by
      simp [genCore, bannerLine]
    have hstep : scanGo ((genCore b.name b.added_at b.body ++ chainN bs).length + 1)
        (genCore b.name b.added_at b.body ++ chainN bs) true
        = (b.name, b.added_at, b.body ++ ['\n']) ::
          bs.map (fun x => (x.name, x.added_at, x.body ++ ['\n'])) := by
      rw [scanGo_step_match hm hne]
      have hflag : (((b.body ++ ['\n']).getLastD '\n' = '\n') : Bool) = true := by
        simp [List.getLastD_concat]
      rw [hflag, ih2 true]
    constructor
    · intro flag
      have e : chainN (b :: bs) = '\n' :: ('\n' ::
          (genCore b.name b.added_at b.body ++ chainN bs)) := rfl
      rw [e]
      rw [show ('\n' :: ('\n' :: (genCore b.name b.added_at b.body ++ chainN bs))).length + 1
          = ((genCore b.name b.added_at b.body ++ chainN bs).length + 1) + 1 + 1 from by simp]
      rw [scanGo_cons_nl, scanGo_cons_nl]
      exact hstep
    · intro flag
      have e : (chainN (b :: bs)).drop 1 = '\n' ::
          (genCore b.name b.added_at b.body ++ chainN bs) := rfl
      rw [e]
      rw [show ('\n' :: (genCore b.name b.added_at b.body ++ chainN bs)).length + 1
          = ((genCore b.name b.added_at b.body ++ chainN bs).length + 1) + 1 from by simp]
      rw [scanGo_cons_nl]
      exact hstep

theorem eqRunNl_shape {s r : Str} (h : eqRunNl s = some r) : ∃ rest, s = '=' :: rest := by
  unfold eqRunNl at h
  split at h
  · rename_i rest; exact ⟨rest, rfl⟩
  · exact absurd h (by simp)

theorem matchPeerAt_needs {s : Str} (h : dropPref (sLit "# =") s = none) :
    matchPeerAt s = none := by
  cases hp : matchPeerAt s with
  | none => rfl
  | some q =>
    exfalso
    unfold matchPeerAt at hp
    split at hp
    · exact absurd hp (by simp)
    · rename_i s1 h1
      split at hp
      · exact absurd hp (by simp)
      · rename_i s2 h2
        obtain ⟨rest, hrest⟩ := eqRunNl_shape h2
        have hs : s = sLit "# =" ++ rest := by
          rw [dropPref_eq_some.mp h1, hrest]
          rfl
        rw [hs, dropPref_self_append] at h
        exact absurd h (by simp)

theorem noSub_tail {p : Str} {c : Char} {s : Str} (h : noSub p (c :: s)) :
    noSub p s := fun j => by simpa using h (j + 1)

theorem scanC_walk : ∀ (P : Str) (X : Str) (flag : Bool), noSub (sLit "# =") P →
    scanGo ((P ++ '\n' :: X).length + 1) (P ++ '\n' :: X) flag
      = scanGo (X.length + 1) X true := by
  intro P
  induction P with
  | nil =>
    intro X flag _
    simpa using scanGo_cons_nl X flag (X.length + 1)
  | cons c P' ih =>
    intro X flag hP
    have h0 : dropPref (sLit "# =") ((c :: P') ++ '\n' :: X) = none := by
      have h1 : ∀ j, j < (c :: P').length →
          dropPref (sLit "# =") ((c :: P').drop j ++ '\n' :: X) = none :=
        noOcc_head (by decide) hP (fun e he => by simp at he; subst he; decide)
      simpa using h1 0 (by simp)
    have hm := matchPeerAt_needs h0
    rw [List.cons_append] at hm ⊢
    rw [show (c :: (P' ++ '\n' :: X)).length + 1 = ((P' ++ '\n' :: X).length + 1) + 1
      from by simp]
    cases flag with
    | true =>
      rw [scanGo, hm]
      dsimp only
      exact ih X _ (noSub_tail hP)
    | false =>
      rw [scanGo]
      exact ih X _ (noSub_tail hP)

theorem scanPeers_storeTextR (P : Str) (bs : List RawBlock)
    (hP : noSub (sLit "# =") P) (hbs : ∀ b ∈ bs, WfRawB b = true) :
    scanPeers (storeTextR P bs) = bs.map (fun b => (b.name, b.added_at, b.body ++ ['\n'])) := by
  unfold scanPeers storeTextR
  obtain ⟨X, hX⟩ : ∃ X, chainN bs = '\n' :: X := by
    cases bs with
    | nil => exact ⟨[], rfl⟩
    | cons b bs => exact ⟨_, rfl⟩
  rw [hX, scanC_walk P X true hP]
  have h2 := (scanGo_chainN bs hbs).2 true
  have e : (chainN bs).drop 1 = X := by rw [hX]; rfl
  rw [e] at h2
  exact h2

theorem parse_peers_storeTextR (P : Str) (bs : List RawBlock)
    (hP : noSub (sLit "# =") P) (hbs : ∀ b ∈ bs, WfRawB b = true) :
    parse_peers (storeTextR P bs)
      = bs.filterMap (fun b => extractPeer (b.name, b.added_at, b.body ++ ['\n'])) := by
  unfold parse_peers
  rw [scanPeers_storeTextR P bs hP hbs, List.filterMap_map]
  rfl

/- ==== strip and field-search lemmas ==== -/

theorem dropWhile_suffix_of (p : Char → Bool) : ∀ (l : Str), l.dropWhile p <:+ l := by
  intro l
  induction l with
  | nil => simp
  | cons c cs ih =>
    by_cases h : p c
    · rw [List.dropWhile_cons_of_pos h]
      exact ih.trans (List.suffix_cons c cs)
    · rw [List.dropWhile_cons_of_neg h]

theorem pyRStrip_len_le (s : Str) : (pyRStrip s).length ≤ s.length := by
  unfold pyRStrip
  rw [List.length_reverse]
  calc (s.reverse.dropWhile pyIsSpace).length ≤ s.reverse.length := dropWhile_len_le _ _
    _ = s.length := List.length_reverse s

theorem pyLStrip_len_le (s : Str) : (pyLStrip s).length ≤ s.length :=
  dropWhile_len_le _ _

theorem pyStrip_stable_head {v : Str} {c : Char} (h : pyStrip v = v)
    (hc : v.head? = some c) : pyIsSpace c = false := by
  cases v with
  | nil => simp at hc
  | cons d ds =>
    injection hc with hc
    subst hc
    by_contra hsp
    simp only [Bool.not_eq_false] at hsp
    have h1 : pyLStrip (d :: ds) = pyLStrip ds := by
      unfold pyLStrip
      rw [List.dropWhile_cons_of_pos hsp]
    have h2 : (pyStrip (d :: ds)).length ≤ ds.length := by
      unfold pyStrip
      rw [h1]
      calc (pyRStrip (pyLStrip ds)).length ≤ (pyLStrip ds).length := pyRStrip_len_le _
        _ ≤ ds.length := pyLStrip_len_le _
    rw [h] at h2
    simp at h2

theorem pyStrip_stable_last {v : Str} {c : Char} (h : pyStrip v = v)
    (hc : v.getLast? = some c) : pyIsSpace c = false := by
  have hls : pyLStrip v = v := by
    have h1 : (pyStrip v).length ≤ (pyLStrip v).length := pyRStrip_len_le _
    have h2 : (pyLStrip v).length ≤ v.length := pyLStrip_len_le _
    rw [h] at h1
    have hlen : (pyLStrip v).length = v.length := by omega
    exact List.IsSuffix.eq_of_length (dropWhile_suffix_of pyIsSpace v) hlen
  have hrs : pyRStrip v = v := by
    conv_lhs => rw [← hls]
    exact h
  rw [List.getLast?_eq_head?_reverse] at hc
  cases hv : v.reverse with
  | nil => rw [hv] at hc; simp at hc
  | cons d ds =>
    rw [hv] at hc
    injection hc with hc
    subst hc
    by_contra hsp
    simp only [Bool.not_eq_false] at hsp
    have h1 : v.reverse.dropWhile pyIsSpace = ds.dropWhile pyIsSpace := by
      rw [hv, List.dropWhile_cons_of_pos hsp]
    have h2 : (pyRStrip v).length ≤ ds.length := by
      unfold pyRStrip
      rw [List.length_reverse, h1]
      exact dropWhile_len_le _ _
    rw [hrs] at h2
    have h3 : v.length = ds.length + 1 := by
      rw [← List.length_reverse v, hv]
      simp
    omega

theorem takeWhile_append_all {q : Char → Bool} {v rest : Str}
    (hall : ∀ c ∈ v, q c = true)
    (hr : rest = [] ∨ ∃ c, rest.head? = some c ∧ q c = false) :
    List.takeWhile q (v ++ rest) = v := by
  induction v with
  | nil =>
    rcases hr with rfl | ⟨c, hc1, hc2⟩
    · rfl
    · cases rest with
      | nil => rfl
      | cons d ds =>
        injection hc1 with hc1
        subst hc1
        simp [List.takeWhile, hc2]
  | cons c cs ih =>
    rw [List.cons_append, List.takeWhile_cons_of_pos (hall c (by simp))]
    rw [ih (fun x hx => hall x (by simp [hx]))]

theorem wfField_dest {v : Str} (h : WfFieldB v = true) :
    v ≠ [] ∧ '\n' ∉ v ∧ pyStrip v = v ∧ noSub (sLit "# =") v ∧
    noSub pkKey v ∧ noSub aiKey v ∧ noSub pskKey v ∧ noSub epKey v := by
  simp only [WfFieldB, Bool.and_eq_true, decide_eq_true_eq, List.all_eq_true] at h
  obtain ⟨⟨⟨⟨⟨⟨⟨h1, h2⟩, h3⟩, h4⟩, h5⟩, h6⟩, h7⟩, h8⟩ := h
  refine ⟨h1, ?_, h3, noSub_iff.mp h4, noSub_iff.mp h5, noSub_iff.mp h6,
    noSub_iff.mp h7, noSub_iff.mp h8⟩
  intro hm
  have := h2 _ hm
  simp at this

theorem matchKeyAt_line (key v rest : Str)
    (hv1 : v ≠ []) (hvh : ∀ c, v.head? = some c → pyIsSpace c = false)
    (hvn : '\n' ∉ v)
    (hr : rest = [] ∨ rest.head? = some '\n') :
    matchKeyAt key (key ++ (sLit " = " ++ (v ++ rest))) = some v := by
  unfold matchKeyAt
  rw [dropPref_self_append]
  have e : sLit " = " ++ (v ++ rest) = ' ' :: ('=' :: (' ' :: (v ++ rest))) := rfl
  rw [e]
  dsimp only
  rw [show List.dropWhile pyIsSpace (' ' :: ('=' :: (' ' :: (v ++ rest))))
      = '=' :: (' ' :: (v ++ rest)) from by
    rw [List.dropWhile_cons_of_pos (by decide)]
    rw [List.dropWhile_cons_of_neg (by decide)]]
  unfold matchSpGroup
  cases v with
  | nil => exact absurd rfl hv1
  | cons vc vs =>
    have hvc : pyIsSpace vc = false := hvh vc rfl
    have ht : List.takeWhile pyIsSpace (' ' :: ((vc :: vs) ++ rest)) = [' '] := by
      rw [List.takeWhile_cons_of_pos (by decide), List.cons_append,
        List.takeWhile_cons_of_neg (by simp [hvc])]
    show findGroup (' ' :: ((vc :: vs) ++ rest))
        (List.takeWhile pyIsSpace (' ' :: ((vc :: vs) ++ rest))).length = some (vc :: vs)
    rw [ht]
    show findGroup (' ' :: ((vc :: vs) ++ rest)) 1 = some (vc :: vs)
    rw [findGroup]
    have hd1 : (' ' :: ((vc :: vs) ++ rest)).drop 1 = (vc :: vs) ++ rest := rfl
    rw [hd1, List.cons_append]
    have hvcn : ¬ (vc = '\n') := fun hh => hvn (by rw [hh]; simp)
    simp only [hvcn, if_false]
    rw [show vc :: (vs ++ rest) = (vc :: vs) ++ rest from rfl]
    rw [takeWhile_append_all ?ha ?hb]
    case ha =>
      intro c hc
      have : ¬ (c = '\n') := fun hh => hvn (hh ▸ hc)
      simpa using this
    case hb =>
      rcases hr with rfl | hh
      · exact Or.inl rfl
      · exact Or.inr ⟨'\n', hh, by simp⟩

theorem reSearchKV_of_matchKeyAt {key s : Str} {g : Str}
    (h : matchKeyAt key s = some g) (hs : s ≠ []) : reSearchKV key s = some g := by
  cases s with
  | nil => exact absurd rfl hs
  | cons c cs => rw [reSearchKV, h]

theorem reSearchKV_cons_ne {key : Str} {c : Char} {cs : Str}
    (h : dropPref key (c :: cs) = none) :
    reSearchKV key (c :: cs) = reSearchKV key cs := by
  rw [reSearchKV]
  unfold matchKeyAt
  rw [h]

theorem reSearchKV_skip (key a b : Str)
    (h : ∀ j, j < a.length → dropPref key (a.drop j ++ b) = none) :
    reSearchKV key (a ++ b) = reSearchKV key b := by
  induction a with
  | nil => rfl
  | cons c a' ih =>
    rw [List.cons_append]
    rw [reSearchKV_cons_ne (by simpa using h 0 (by simp))]
    exact ih (fun j hj => by simpa using h (j + 1) (by simp; omega))

theorem reSearchKV_none (key : Str) : ∀ (s : Str), noSub key s →
    reSearchKV key s = none := by
  intro s
  induction s with
  | nil => intro _; rfl
  | cons c cs ih =>
    intro h
    rw [reSearchKV_cons_ne (by simpa using h 0)]
    exact ih (noSub_tail h)

theorem noSub_cons_of {k : Str} {c : Char} {X : Str}
    (h0 : dropPref k (c :: X) = none) (h : noSub k X) : noSub k (c :: X) := by
  intro j
  cases j with
  | zero => exact h0
  | succ j => simpa using h j

theorem dropPref_cons_ne {a : Char} {as : Str} {c : Char} {cs : Str}
    (h : ¬ a = c) : dropPref (a :: as) (c :: cs) = none := by
  simp [dropPref, h]

theorem sLit_pk_line : sLit "PublicKey = " = pkKey ++ sLit " = " := rfl
theorem sLit_ai_line : sLit "\nAllowedIPs = " = '\n' :: (aiKey ++ sLit " = ") := rfl
theorem sLit_ep_line : sLit "Endpoint = " = epKey ++ sLit " = " := rfl
theorem sLit_psk_line : sLit "PresharedKey = " = pskKey ++ sLit " = " := rfl

theorem head?_append_cons {a : Str} {c : Char} {b : Str} (h : a = []) :
    (a ++ c :: b).head? = some c := by subst h; rfl

/-- The value of the `AllowedIPs` line together with everything that can
follow it never starts with whitespace. -/
theorem ipval_head {ip : Str} (hiph : ∀ c, ip.head? = some c → pyIsSpace c = false) :
    ∀ c, (ip ++ sLit "/32").head? = some c → pyIsSpace c = false := by
  intro c hc
  cases ip with
  | nil => simp [sLit] at hc; subst hc; decide
  | cons i0 is =>
    rw [List.cons_append, List.head?_cons] at hc
    injection hc with hc
    subst hc
    exact hiph _ rfl

theorem ipval_ne_nil (ip : Str) : ip ++ sLit "/32" ≠ [] := by simp [sLit]

theorem ipval_no_nl {ip : Str} (hipn : '\n' ∉ ip) : '\n' ∉ ip ++ sLit "/32" := by
  intro h
  rcases List.mem_append.mp h with h | h
  · exact hipn h
  · simp [sLit] at h

theorem tail_head (psk ep : Option Str) (suf : Str)
    (hps : ∀ k, psk = some k → k ≠ []) (hepw : ∀ e2, ep = some e2 → e2 ≠ [])
    (hsuf : suf = [] ∨ suf = ['\n']) :
    (optLine "PresharedKey = " psk ++ (optLine "Endpoint = " ep ++ suf)) = [] ∨
    (optLine "PresharedKey = " psk ++ (optLine "Endpoint = " ep ++ suf)).head?
      = some '\n' := by
  cases psk with
  | some k =>
    right
    have hk : ¬ (k = []) := hps k rfl
    simp [optLine, hk]
  | none =>
    cases ep with
    | some e2 =>
      right
      have he : ¬ (e2 = []) := hepw e2 rfl
      simp [optLine, he]
    | none =>
      rcases hsuf with rfl | rfl
      · left; simp [optLine]
      · right; simp [optLine]

theorem search_pk_body (pk ip : Str) (psk ep : Option Str) (suf : Str)
    (hpk : WfFieldB pk = true) :
    reSearchKV pkKey (bodyOf pk ip psk ep ++ suf) = some pk := by
  obtain ⟨hp1, hp2, hp3, _, _, _, _, _⟩ := wfField_dest hpk
  have e : bodyOf pk ip psk ep ++ suf
      = pkKey ++ (sLit " = " ++ (pk ++ ('\n' :: ((aiKey ++ sLit " = ") ++
          (ip ++ (sLit "/32" ++ ((optLine "PresharedKey = " psk ++
            (optLine "Endpoint = " ep ++ suf))))))))) := by
    simp [bodyOf, sLit_pk_line, sLit_ai_line, List.append_assoc]
  rw [e]
  apply reSearchKV_of_matchKeyAt
  · apply matchKeyAt_line
    · exact hp1
    · intro c hc; exact pyStrip_stable_head hp3 hc
    · exact hp2
    · right; rfl
  · simp [pkKey, sLit]

theorem search_ai_body (pk ip : Str) (psk ep : Option Str) (suf : Str)
    (hpk : WfFieldB pk = true)
    (hipn : '\n' ∉ ip)
    (hiph : ∀ c, ip.head? = some c → pyIsSpace c = false)
    (hT : (optLine "PresharedKey = " psk ++ (optLine "Endpoint = " ep ++ suf)) = [] ∨
          (optLine "PresharedKey = " psk ++ (optLine "Endpoint = " ep ++ suf)).head?
            = some '\n') :
    reSearchKV aiKey (bodyOf pk ip psk ep ++ suf) = some (ip ++ sLit "/32") := by
  obtain ⟨hp1, hp2, hp3, _, _, hpa, _, _⟩ := wfField_dest hpk
  have e : bodyOf pk ip psk ep ++ suf
      = (pkKey ++ (sLit " = " ++ pk)) ++ ('\n' :: (aiKey ++ (sLit " = " ++
          ((ip ++ sLit "/32") ++ (optLine "PresharedKey = " psk ++
            (optLine "Endpoint = " ep ++ suf)))))) := by
    simp [bodyOf, sLit_pk_line, sLit_ai_line, List.append_assoc]
  rw [e]
  have na2 : noSub aiKey (sLit " = " ++ pk) := by
    apply noSub_append_last' (by decide) (noSub_iff.mp (by decide)) hpa
      (show (sLit " = ").getLast? = some ' ' from by decide)
    decide
  have na3 : noSub aiKey (pkKey ++ (sLit " = " ++ pk)) := by
    apply noSub_append_head (by decide) (noSub_iff.mp (by decide)) na2
    intro e2 he
    rw [show (sLit " = " ++ pk).head? = some ' ' from rfl] at he
    injection he with he
    subst he
    decide
  rw [reSearchKV_skip aiKey _ _ (noOcc_head (by decide) na3
    (fun e2 he => by simp at he; subst he; decide))]
  rw [reSearchKV_cons_ne (by
    rw [show aiKey = 'A' :: sLit "llowedIPs" from rfl]
    exact dropPref_cons_ne (by decide))]
  apply reSearchKV_of_matchKeyAt
  · apply matchKeyAt_line
    · exact ipval_ne_nil ip
    · exact ipval_head hiph
    · exact ipval_no_nl hipn
    · rcases hT with h | h
      · exact Or.inl h
      · exact Or.inr h
  · simp [aiKey, sLit]

theorem search_skip_to_tail (k pk ip : Str) (psk ep : Option Str) (suf : Str)
    (hk : k ≠ []) (hksp : ' ' ∉ k) (hknl : '\n' ∉ k) (hksl : '/' ∉ k)
    (h1 : noSub k pkKey) (h2 : noSub k aiKey)
    (h3 : noSub k (sLit " = ")) (h4 : noSub k (sLit "/32"))
    (hplit : noSub k pk) (hip : noSub k ip)
    (hT : (optLine "PresharedKey = " psk ++ (optLine "Endpoint = " ep ++ suf)) = [] ∨
          (optLine "PresharedKey = " psk ++ (optLine "Endpoint = " ep ++ suf)).head?
            = some '\n') :
    reSearchKV k (bodyOf pk ip psk ep ++ suf)
      = reSearchKV k (optLine "PresharedKey = " psk ++
          (optLine "Endpoint = " ep ++ suf)) := by
  have hdropk : ∀ c, c ∉ k → c ∉ k.drop 1 := fun c hc hm => hc (List.drop_subset 1 k hm)
  have e : bodyOf pk ip psk ep ++ suf
      = (pkKey ++ (sLit " = " ++ (pk ++ ('\n' :: (aiKey ++ (sLit " = " ++
          (ip ++ sLit "/32"))))))) ++ (optLine "PresharedKey = " psk ++
            (optLine "Endpoint = " ep ++ suf)) := by
    simp [bodyOf, sLit_pk_line, sLit_ai_line, List.append_assoc]
  rw [e]
  have c1 : noSub k (ip ++ sLit "/32") := by
    apply noSub_append_head hk hip h4
    intro e2 he
    rw [show (sLit "/32").head? = some '/' from rfl] at he
    injection he with he
    subst he
    exact hdropk _ hksl
  have c2 : noSub k (sLit " = " ++ (ip ++ sLit "/32")) := by
    apply noSub_append_last' hk h3 c1 (show (sLit " = ").getLast? = some ' ' from by decide)
    exact hksp
  have c3 : noSub k (aiKey ++ (sLit " = " ++ (ip ++ sLit "/32"))) := by
    apply noSub_append_head hk h2 c2
    intro e2 he
    rw [show (sLit " = " ++ (ip ++ sLit "/32")).head? = some ' ' from rfl] at he
    injection he with he
    subst he
    exact hdropk _ hksp
  have c4 : noSub k ('\n' :: (aiKey ++ (sLit " = " ++ (ip ++ sLit "/32")))) := by
    apply noSub_cons_of ?_ c3
    cases k with
    | nil => exact absurd rfl hk
    | cons a as =>
      exact dropPref_cons_ne (fun he => hknl (by rw [he]; exact List.mem_cons_self _ _))
  have c5 : noSub k (pk ++ ('\n' :: (aiKey ++ (sLit " = " ++ (ip ++ sLit "/32"))))) := by
    apply noSub_append_head hk hplit c4
    intro e2 he
    rw [List.head?_cons] at he
    injection he with he
    subst he
    exact hdropk _ hknl
  have c6 : noSub k (sLit " = " ++ (pk ++ ('\n' :: (aiKey ++ (sLit " = " ++
      (ip ++ sLit "/32")))))) := by
    apply noSub_append_last' hk h3 c5 (show (sLit " = ").getLast? = some ' ' from by decide)
    exact hksp
  have c7 : noSub k (pkKey ++ (sLit " = " ++ (pk ++ ('\n' :: (aiKey ++ (sLit " = " ++
      (ip ++ sLit "/32"))))))) := by
    apply noSub_append_head hk h1 c6
    intro e2 he
    rw [show (sLit " = " ++ (pk ++ ('\n' :: (aiKey ++ (sLit " = " ++
      (ip ++ sLit "/32")))))).head? = some ' ' from rfl] at he
    injection he with he
    subst he
    exact hdropk _ hksp
  apply reSearchKV_skip
  apply noOcc_head hk c7
  intro e2 he
  rcases hT with hTe | hTh
  · rw [hTe] at he; simp at he
  · rw [hTh] at he
    injection he with he
    subst he
    exact hdropk _ hknl

theorem noSub_suf {k : Str} (hk2 : 2 ≤ k.length) (hsuf : suf = [] ∨ suf = ['\n']) :
    noSub k suf := by
  rcases hsuf with rfl | rfl
  · exact noSub_nil (by intro h; rw [h] at hk2; simp at hk2)
  · intro j
    cases k with
    | nil => simp at hk2
    | cons a as =>
      cases as with
      | nil => simp at hk2
      | cons a2 as2 =>
        cases j with
        | zero =>
          rw [List.drop_zero]
          cases hc : dropPref (a :: a2 :: as2) ['\n'] with
          | none => rfl
          | some r =>
            exfalso
            have hlen := dropPref_length hc
            simp at hlen
            omega
        | succ j => simp [dropPref]

theorem search_psk_tail (psk ep : Option Str) (suf : Str)
    (hps : ∀ k, psk = some k → WfFieldB k = true)
    (hepw : ∀ e2, ep = some e2 → WfFieldB e2 = true)
    (hsuf : suf = [] ∨ suf = ['\n']) :
    reSearchKV pskKey (optLine "PresharedKey = " psk ++
      (optLine "Endpoint = " ep ++ suf)) = psk := by
  cases psk with
  | some k =>
    obtain ⟨hk1, hk2, hk3, _⟩ := wfField_dest (hps k rfl)
    have e : optLine "PresharedKey = " (some k) ++ (optLine "Endpoint = " ep ++ suf)
        = '\n' :: (pskKey ++ (sLit " = " ++ (k ++ (optLine "Endpoint = " ep ++ suf)))) := by
      simp [optLine, hk1, sLit_psk_line, List.append_assoc]
    rw [e]
    rw [reSearchKV_cons_ne (by
      rw [show pskKey = 'P' :: sLit "resharedKey" from rfl]
      exact dropPref_cons_ne (by decide))]
    apply reSearchKV_of_matchKeyAt
    · apply matchKeyAt_line
      · exact hk1
      · intro c hc; exact pyStrip_stable_head hk3 hc
      · exact hk2
      · cases ep with
        | some e2 =>
          right
          have he2 : ¬ (e2 = []) := (wfField_dest (hepw e2 rfl)).1
          simp [optLine, he2]
        | none =>
          rcases hsuf with rfl | rfl
          · left; simp [optLine]
          · right; simp [optLine]
    · simp [pskKey, sLit]
  | none =>
    rw [show optLine "PresharedKey = " none = ([] : Str) from rfl, List.nil_append]
    apply reSearchKV_none
    cases ep with
    | some e2 =>
      obtain ⟨he1, he2, he3, he4, he5, he6, he7, he8⟩ := wfField_dest (hepw e2 rfl)
      have s1 : noSub pskKey suf := noSub_suf (by decide) hsuf
      have s2 : noSub pskKey (e2 ++ suf) := by
        apply noSub_append_head (by decide) he7 s1
        intro c hc
        rcases hsuf with rfl | rfl
        · simp at hc
        · simp at hc; subst hc; decide
      have s3 : noSub pskKey (sLit "Endpoint = " ++ (e2 ++ suf)) := by
        apply noSub_append_last' (by decide) (noSub_iff.mp (by decide)) s2
          (show (sLit "Endpoint = ").getLast? = some ' ' from by decide)
        decide
      have e : optLine "Endpoint = " (some e2) ++ suf
          = '\n' :: (sLit "Endpoint = " ++ (e2 ++ suf)) := by
        simp [optLine, he1, List.append_assoc]
      rw [e]
      apply noSub_cons_of ?_ s3
      rw [show pskKey = 'P' :: sLit "resharedKey" from rfl]
      exact dropPref_cons_ne (by decide)
    | none =>
      rw [show optLine "Endpoint = " none = ([] : Str) from rfl, List.nil_append]
      exact noSub_suf (by decide) hsuf

theorem search_ep_tail (psk ep : Option Str) (suf : Str)
    (hps : ∀ k, psk = some k → WfFieldB k = true)
    (hepw : ∀ e2, ep = some e2 → WfFieldB e2 = true)
    (hsuf : suf = [] ∨ suf = ['\n']) :
    reSearchKV epKey (optLine "PresharedKey = " psk ++
      (optLine "Endpoint = " ep ++ suf)) = ep := by
  cases ep with
  | some e2 =>
    obtain ⟨he1, he2, he3, _⟩ := wfField_dest (hepw e2 rfl)
    have hfin : reSearchKV epKey (optLine "Endpoint = " (some e2) ++ suf) = some e2 := by
      have e : optLine "Endpoint = " (some e2) ++ suf
          = '\n' :: (epKey ++ (sLit " = " ++ (e2 ++ suf))) := by
        simp [optLine, he1, sLit_ep_line, List.append_assoc]
      rw [e]
      rw [reSearchKV_cons_ne (by
        rw [show epKey = 'E' :: sLit "ndpoint" from rfl]
        exact dropPref_cons_ne (by decide))]
      apply reSearchKV_of_matchKeyAt
      · apply matchKeyAt_line
        · exact he1
        · intro c hc; exact pyStrip_stable_head he3 hc
        · exact he2
        · exact hsuf.imp id (fun h => by rw [h]; rfl)
      · simp [epKey, sLit]
    cases psk with
    | none =>
      rw [show optLine "PresharedKey = " none = ([] : Str) from rfl, List.nil_append]
      exact hfin
    | some kk =>
      obtain ⟨hkk1, hkk2, hkk3, hkk4, hkk5, hkk6, hkk7, hkk8⟩ := wfField_dest (hps kk rfl)
      have e : optLine "PresharedKey = " (some kk) ++ (optLine "Endpoint = " (some e2) ++ suf)
          = ('\n' :: (sLit "PresharedKey = " ++ kk)) ++ (optLine "Endpoint = " (some e2) ++ suf) := by
        simp [optLine, hkk1, List.append_assoc]
      rw [e]
      have s2 : noSub epKey (sLit "PresharedKey = " ++ kk) := by
        apply noSub_append_last' (by decide) (noSub_iff.mp (by decide)) hkk8
          (show (sLit "PresharedKey = ").getLast? = some ' ' from by decide)
        decide
      have s3 : noSub epKey ('\n' :: (sLit "PresharedKey = " ++ kk)) := by
        apply noSub_cons_of ?_ s2
        rw [show epKey = 'E' :: sLit "ndpoint" from rfl]
        exact dropPref_cons_ne (by decide)
      rw [reSearchKV_skip epKey _ _ (noOcc_head (by decide) s3 (fun c hc => by
        have : (optLine "Endpoint = " (some e2) ++ suf).head? = some '\n' := by
          simp [optLine, he1]
        rw [this] at hc
        injection hc with hc
        subst hc
        decide))]
      exact hfin
  | none =>
    rw [show optLine "Endpoint = " none = ([] : Str) from rfl]
    apply reSearchKV_none
    cases psk with
    | some kk =>
      obtain ⟨hkk1, hkk2, hkk3, hkk4, hkk5, hkk6, hkk7, hkk8⟩ := wfField_dest (hps kk rfl)
      have s1 : noSub epKey suf := noSub_suf (by decide) hsuf
      have s2 : noSub epKey (kk ++ suf) := by
        apply noSub_append_head (by decide) hkk8 s1
        intro c hc
        rcases hsuf with rfl | rfl
        · simp at hc
        · simp at hc; subst hc; decide
      have s3 : noSub epKey (sLit "PresharedKey = " ++ (kk ++ suf)) := by
        apply noSub_append_last' (by decide) (noSub_iff.mp (by decide)) s2
          (show (sLit "PresharedKey = ").getLast? = some ' ' from by decide)
        decide
      have e : optLine "PresharedKey = " (some kk) ++ ([] ++ suf)
          = '\n' :: (sLit "PresharedKey = " ++ (kk ++ suf)) := by
        simp [optLine, hkk1, List.append_assoc]
      rw [e]
      apply noSub_cons_of ?_ s3
      rw [show epKey = 'E' :: sLit "ndpoint" from rfl]
      exact dropPref_cons_ne (by decide)
    | none =>
      rw [show optLine "PresharedKey = " none = ([] : Str) from rfl]
      simp only [List.nil_append]
      exact noSub_suf (by decide) hsuf

theorem extractPeer_body (n d pk ip : Str) (psk ep : Option Str) (suf : Str)
    (hpk : WfFieldB pk = true)
    (hipn : '\n' ∉ ip)
    (hipP : noSub pkKey ip) (hipA : noSub aiKey ip)
    (hipE : noSub epKey ip) (hipS : noSub pskKey ip)
    (hiph : ∀ c, ip.head? = some c → pyIsSpace c = false)
    (hstrip : pyStrip (ip ++ sLit "/32") = ip ++ sLit "/32")
    (hps : ∀ k, psk = some k → WfFieldB k = true)
    (hepw : ∀ e2, ep = some e2 → WfFieldB e2 = true)
    (hsuf : suf = [] ∨ suf = ['\n']) :
    extractPeer (n, d, bodyOf pk ip psk ep ++ suf)
      = some { name := pyStrip n, public_key := pk,
               allowed_ips := ip ++ sLit "/32", added_at := pyStrip d,
               endpoint := ep, preshared_key := psk } := by
  obtain ⟨hp1, hp2, hp3, hp4, hp5, hp6, hp7, hp8⟩ := wfField_dest hpk
  have hT := tail_head psk ep suf
    (fun k hk => (wfField_dest (hps k hk)).1)
    (fun e2 he => (wfField_dest (hepw e2 he)).1)
    hsuf
  have s1 := search_pk_body pk ip psk ep suf hpk
  have s2 := search_ai_body pk ip psk ep suf hpk hipn hiph hT
  have s3 : reSearchKV pskKey (bodyOf pk ip psk ep ++ suf) = psk := by
    rw [search_skip_to_tail pskKey pk ip psk ep suf (by decide) (by decide)
      (by decide) (by decide) (noSub_iff.mp (by decide)) (noSub_iff.mp (by decide))
      (noSub_iff.mp (by decide)) (noSub_iff.mp (by decide)) hp7 hipS hT]
    exact search_psk_tail psk ep suf hps hepw hsuf
  have s4 : reSearchKV epKey (bodyOf pk ip psk ep ++ suf) = ep := by
    rw [search_skip_to_tail epKey pk ip psk ep suf (by decide) (by decide)
      (by decide) (by decide) (noSub_iff.mp (by decide)) (noSub_iff.mp (by decide))
      (noSub_iff.mp (by decide)) (noSub_iff.mp (by decide)) hp8 hipE hT]
    exact search_ep_tail psk ep suf hps hepw hsuf
  show extractPeer (n, d, bodyOf pk ip psk ep ++ suf) = _
  unfold extractPeer
  simp only [s1, s2, s3, s4]
  congr 1
  have hpkstrip : pyStrip pk = pk := hp3
  have hepstrip : ep.map pyStrip = ep := by
    cases ep with
    | none => rfl
    | some e2 => simp [(wfField_dest (hepw e2 rfl)).2.2.1]
  have hpsstrip : psk.map pyStrip = psk := by
    cases psk with
    | none => rfl
    | some k => simp [(wfField_dest (hps k rfl)).2.2.1]
  simp [hpkstrip, hstrip, hepstrip, hpsstrip]

theorem junc_addedAt (b : Str) :
    sLit "\n# AddedAt: " ++ b = '\n' :: (sLit "# AddedAt: " ++ b) := rfl

theorem junc_peerHdr (b : Str) :
    sLit "\n[Peer]\n" ++ b = '\n' :: (sLit "[Peer]" ++ '\n' :: b) := rfl

theorem junc_allowed (b : Str) :
    sLit "\nAllowedIPs = " ++ b = '\n' :: (sLit "AllowedIPs = " ++ b) := rfl

theorem gen_eq (name pk ip d : Str) (ep psk : Option Str) :
    generate_peer_block name pk ip d ep psk
      = '\n' :: genCore name d (bodyOf pk ip psk ep) := by
  cases psk with
  | none =>
    cases ep with
    | none =>
      simp only [generate_peer_block, genCore, bodyOf, optLine, List.cons_append,
        List.nil_append, List.append_nil, joinNl, List.append_assoc,
        junc_addedAt, junc_peerHdr, junc_allowed, if_true]
    | some e =>
      by_cases he : e = []
      · subst he
        simp only [generate_peer_block, genCore, bodyOf, optLine, if_pos rfl,
          List.cons_append, List.nil_append, List.append_nil, joinNl,
          List.append_assoc, junc_addedAt, junc_peerHdr, junc_allowed, if_true]
      · simp only [generate_peer_block, genCore, bodyOf, optLine, if_neg he,
          List.cons_append, List.nil_append, List.append_nil, joinNl,
          List.append_assoc, junc_addedAt, junc_peerHdr, junc_allowed, if_true]
  | some k =>
    by_cases hk : k = []
    · subst hk
      cases ep with
      | none =>
        simp only [generate_peer_block, genCore, bodyOf, optLine, if_pos rfl,
          List.cons_append, List.nil_append, List.append_nil, joinNl,
          List.append_assoc, junc_addedAt, junc_peerHdr, junc_allowed, if_true]
      | some e =>
        by_cases he : e = []
        · subst he
          simp only [generate_peer_block, genCore, bodyOf, optLine, if_pos rfl,
            List.cons_append, List.nil_append, List.append_nil, joinNl,
            List.append_assoc, junc_addedAt, junc_peerHdr, junc_allowed, if_true]
        · simp only [generate_peer_block, genCore, bodyOf, optLine, if_pos rfl,
            if_neg he, List.cons_append, List.nil_append, List.append_nil,
            joinNl, List.append_assoc, junc_addedAt, junc_peerHdr, junc_allowed, if_true]
    · cases ep with
      | none =>
        simp only [generate_peer_block, genCore, bodyOf, optLine, if_neg hk,
          List.cons_append, List.nil_append, List.append_nil, joinNl,
          List.append_assoc, junc_addedAt, junc_peerHdr, junc_allowed, if_true]
      | some e =>
        by_cases he : e = []
        · subst he
          simp only [generate_peer_block, genCore, bodyOf, optLine, if_neg hk,
            if_pos rfl, List.cons_append, List.nil_append, List.append_nil,
            joinNl, List.append_assoc, junc_addedAt, junc_peerHdr, junc_allowed, if_true]
        · simp only [generate_peer_block, genCore, bodyOf, optLine, if_neg hk,
            if_neg he, List.cons_append, List.nil_append, List.append_nil,
            joinNl, List.append_assoc, junc_addedAt, junc_peerHdr, junc_allowed, if_true]

theorem noSub_append_nl {c : Char} {ps a b : Str} (h : c ∉ a)
    (hb : noSub (c :: ps) b) : noSub (c :: ps) (a ++ b) := by
  apply noSub_append_of _ hb
  intro j hj
  cases ha : a.drop j with
  | nil => simpa using hb 0
  | cons d ds =>
    have hd : d ∈ a := List.mem_of_mem_drop (by rw [ha]; simp)
    rw [List.cons_append]
    exact dropPref_cons_ne (fun he => h (he ▸ hd))

theorem pyStrip_of_ends {s : Str}
    (hh : ∀ c, s.head? = some c → pyIsSpace c = false)
    (hl : ∀ c, s.getLast? = some c → pyIsSpace c = false) :
    pyStrip s = s := by
  have hls : pyLStrip s = s := by
    cases s with
    | nil => rfl
    | cons d ds =>
      unfold pyLStrip
      rw [List.dropWhile_cons_of_neg (by simp [hh d rfl])]
  have hrs : pyRStrip s = s := by
    unfold pyRStrip
    cases hrev : s.reverse with
    | nil =>
      have : s = [] := by simpa using congrArg List.reverse hrev
      subst this; rfl
    | cons c cs =>
      have hc : s.getLast? = some c := by
        rw [← List.head?_reverse, hrev]; rfl
      rw [List.dropWhile_cons_of_neg (by simp [hl c hc]), ← hrev,
        List.reverse_reverse]
  rw [pyStrip, hls, hrs]

theorem qnl_eq : sLit "\n# =" = '\n' :: sLit "# =" := rfl

theorem noSub_nlq_optTail (psk ep : Option Str)
    (hps : ∀ k, psk = some k → '\n' ∉ k)
    (hep : ∀ e, ep = some e → '\n' ∉ e) :
    noSub ('\n' :: sLit "# =")
      (optLine "PresharedKey = " psk ++ optLine "Endpoint = " ep) := by
  have hE : noSub ('\n' :: sLit "# =") (optLine "Endpoint = " ep) := by
    cases ep with
    | none => exact noSub_nil (by decide)
    | some e =>
      by_cases he : e = []
      · simp only [optLine, if_pos he]
        exact noSub_nil (by decide)
      · simp only [optLine, if_neg he]
        apply noSub_cons_of
        · rfl
        · exact noSub_append_nl (by decide) (noSub_of_head_notin (hep e rfl))
  cases psk with
  | none => simpa [optLine] using hE
  | some k =>
    by_cases hk : k = []
    · simpa [optLine, if_pos hk] using hE
    · simp only [optLine, if_neg hk, List.cons_append, List.append_assoc]
      apply noSub_cons_of
      · rfl
      · exact noSub_append_nl (by decide)
          (noSub_append_nl (hps k rfl) hE)

theorem noSub_nlq_bodyOf (pk ip : Str) (psk ep : Option Str)
    (hpk : '\n' ∉ pk) (hip : '\n' ∉ ip)
    (hps : ∀ k, psk = some k → '\n' ∉ k)
    (hep : ∀ e, ep = some e → '\n' ∉ e) :
    noSub (sLit "\n# =") (bodyOf pk ip psk ep) := by
  rw [qnl_eq]
  have hbody : bodyOf pk ip psk ep
      = sLit "PublicKey = " ++ (pk ++ ('\n' :: (sLit "AllowedIPs = " ++
        (ip ++ (sLit "/32" ++ (optLine "PresharedKey = " psk ++
          optLine "Endpoint = " ep)))))) := by
    simp only [bodyOf, List.append_assoc, junc_allowed, List.cons_append]
  rw [hbody]
  apply noSub_append_nl (by decide)
  apply noSub_append_nl hpk
  apply noSub_cons_of
  · rfl
  · apply noSub_append_nl (by decide)
    apply noSub_append_nl hip
    apply noSub_append_nl (by decide)
    exact noSub_nlq_optTail psk ep hps hep

theorem wfOpt_nl {o : Option Str} (h : WfOptB o = true) :
    ∀ v, o = some v → '\n' ∉ v := by
  intro v hv
  subst hv
  exact (wfField_dest h).2.1

theorem wfSpec_dest {s : PeerSpec} (h : WfSpecB s = true) :
    WfFieldB s.name = true ∧ WfFieldB s.public_key = true ∧
    WfFieldB s.assigned_ip = true ∧ WfFieldB s.added_at = true ∧
    WfOptB s.endpoint = true ∧ WfOptB s.preshared_key = true := by
  simp only [WfSpecB, Bool.and_eq_true] at h
  exact ⟨h.1.1.1.1.1, h.1.1.1.1.2, h.1.1.1.2, h.1.1.2, h.1.2, h.2⟩

theorem wfRaw_of_wfSpec {s : PeerSpec} (h : WfSpecB s = true) :
    WfRawB (specRaw s) = true := by
  obtain ⟨h1, h2, h3, h4, h5, h6⟩ := wfSpec_dest h
  have d1 := wfField_dest h1
  have d4 := wfField_dest h4
  simp only [WfRawB, specRaw, WfHdrB, Bool.and_eq_true, decide_eq_true_eq,
    List.all_eq_true]
  refine ⟨⟨⟨d1.1, ?_⟩, d4.1, ?_⟩, ?_⟩
  · intro c hc; simp; intro he; subst he; exact d1.2.1 hc
  · intro c hc; simp; intro he; subst he; exact d4.2.1 hc
  · exact noSub_iff.mpr
      (noSub_nlq_bodyOf s.public_key s.assigned_ip s.preshared_key s.endpoint
        (wfField_dest h2).2.1 (wfField_dest h3).2.1 (wfOpt_nl h6) (wfOpt_nl h5))

theorem wfOpt_some {o : Option Str} (h : WfOptB o = true) :
    ∀ v, o = some v → WfFieldB v = true := by
  intro v hv
  subst hv
  exact h

theorem extractPeer_spec (s : PeerSpec) (suf : Str) (h : WfSpecB s = true)
    (hsuf : suf = [] ∨ suf = ['\n']) :
    extractPeer (s.name, s.added_at,
      bodyOf s.public_key s.assigned_ip s.preshared_key s.endpoint ++ suf)
      = some (specPeer s) := by
  obtain ⟨h1, h2, h3, h4, h5, h6⟩ := wfSpec_dest h
  have d3 := wfField_dest h3
  have hiph : ∀ c, s.assigned_ip.head? = some c → pyIsSpace c = false :=
    fun c hc => pyStrip_stable_head d3.2.2.1 hc
  have hstrip : pyStrip (s.assigned_ip ++ sLit "/32")
      = s.assigned_ip ++ sLit "/32" := by
    apply pyStrip_of_ends (ipval_head hiph)
    intro c hc
    have hrev : (s.assigned_ip ++ sLit "/32").reverse
        = '2' :: ('3' :: ('/' :: s.assigned_ip.reverse)) := by
      rw [List.reverse_append]; rfl
    rw [← List.head?_reverse, hrev] at hc
    injection hc with hc
    subst hc; rfl
  rw [extractPeer_body s.name s.added_at s.public_key s.assigned_ip
    s.preshared_key s.endpoint suf h2 d3.2.1 d3.2.2.2.2.1 d3.2.2.2.2.2.1
    d3.2.2.2.2.2.2.2 d3.2.2.2.2.2.2.1 hiph hstrip (wfOpt_some h6)
    (wfOpt_some h5) hsuf]
  simp [specPeer, (wfField_dest h1).2.2.1, (wfField_dest h4).2.2.1]

theorem parse_storeOf (P : Str) (ss : List PeerSpec)
    (hP : noSub (sLit "# =") P) (hss : ∀ s ∈ ss, WfSpecB s = true) :
    parse_peers (storeOf P ss) = ss.map specPeer := by
  unfold storeOf
  have hbs : ∀ b ∈ ss.map specRaw, WfRawB b = true := by
    intro b hb
    obtain ⟨s, hs, rfl⟩ := List.mem_map.mp hb
    exact wfRaw_of_wfSpec (hss s hs)
  rw [parse_peers_storeTextR P (ss.map specRaw) hP hbs]
  clear hbs hP
  revert hss
  induction ss with
  | nil => intro _; rfl
  | cons s t ih =>
    intro hl
    rw [List.map_cons, List.filterMap_cons, List.map_cons]
    have he : extractPeer ((specRaw s).name, (specRaw s).added_at,
        (specRaw s).body ++ ['\n']) = some (specPeer s) :=
      extractPeer_spec s ['\n'] (hl s (by simp)) (Or.inr rfl)
    rw [he]
    exact congrArg _ (ih (fun x hx => hl x (by simp [hx])))

/-- **C8.** `parse_peers` extracts every well-formed peer block, silently
skips any block whose body lacks a `PublicKey` or an `AllowedIPs` line
(skipping is not an error and does not affect the other blocks), and the
decoded records appear in the order of their blocks in the text: (1) on a
canonical store the result is the per-block extraction filtered over the
blocks in order; (2) a block is skipped exactly when its content has no
`PublicKey` match or no `AllowedIPs` match; (3) every store of well-formed
blocks decodes to all of its records in block order; (4) concretely, a
store whose middle block lacks its `PublicKey` line decodes to the first
and third records, in that order, with no error. -/
theorem claim_C8 :
    (∀ (P : Str) (bs : List RawBlock), noSub (sLit "# =") P →
      (∀ b ∈ bs, WfRawB b = true) →
      parse_peers (storeTextR P bs)
        = bs.filterMap (fun b => extractPeer (b.name, b.added_at, b.body ++ ['\n'])))
    ∧ (∀ n d blk, extractPeer (n, d, blk) = none ↔
        (reSearchKV pkKey blk = none ∨ reSearchKV aiKey blk = none))
    ∧ (∀ (P : Str) (ss : List PeerSpec), noSub (sLit "# =") P →
        (∀ s ∈ ss, WfSpecB s = true) →
        parse_peers (storeOf P ss) = ss.map specPeer)
    ∧ parse_peers cStoreBad = [specPeer spec5, specPeer spec7] := by
  refine ⟨parse_peers_storeTextR, ?_, parse_storeOf, by decide⟩
  intro n d blk
  unfold extractPeer
  cases hpk : reSearchKV pkKey blk with
  | none => simp
  | some pk =>
    cases hai : reSearchKV aiKey blk with
    | none => simp
    | some ai => simp

/-- Witness for C8: the general store-shape clause applied to the concrete
three-spec store. -/
theorem claim_C8_witness :
    parse_peers (storeOf cIface [spec5, spec6, spec7])
      = [specPeer spec5, specPeer spec6, specPeer spec7] :=
  claim_C8.2.2.1 cIface [spec5, spec6, spec7]
    (noSub_iff.mp (by decide)) (by decide)

theorem encodeAll_chainE (rs : List WgPeer) :
    encodeAll rs = chainE (rs.map recRaw) := by
  induction rs with
  | nil => rfl
  | cons r rs ih =>
    show encodePeer r ++ encodeAll rs = _
    rw [ih]
    unfold encodePeer
    rw [gen_eq]
    rfl

theorem lazyStar_body_chainE (body : Str) (bs : List RawBlock)
    (hb : noSub (sLit "\n# =") body) :
    lazyStarBanner (body ++ chainE bs) = (body, chainE bs) := by
  cases bs with
  | nil =>
    have h := lazyStarBanner_exact body []
      (fun j hj => by simpa using hb j) (Or.inl rfl)
    simp only [List.append_nil] at h
    show lazyStarBanner (body ++ []) = (body, [])
    simpa using h
  | cons b' bs' =>
    show lazyStarBanner (body ++ '\n' ::
        (genCore b'.name b'.added_at b'.body ++ chainE bs')) = _
    exact lazyStarBanner_exact body
      ('\n' :: (genCore b'.name b'.added_at b'.body ++ chainE bs'))
      (fun j hj => noOcc_head (by decide) hb
        (fun e2 he => by simp at he; subst he; decide) j hj)
      (Or.inr (bpn_pre_genCore b'.name b'.added_at b'.body (chainE bs')))

theorem scanGo_chainE : ∀ (bs : List RawBlock),
    (∀ b ∈ bs, WfRawB b = true) →
    ∀ flag, scanGo ((chainE bs).length + 1) (chainE bs) flag
        = bs.map (fun b => (b.name, b.added_at, b.body)) := by
  intro bs
  induction bs with
  | nil =>
    intro _ flag
    cases flag <;> rfl
  | cons b bs ih =>
    intro hwf flag
    obtain ⟨hn1, hn2, hd1, hd2, hbody⟩ := wfRaw_dest (hwf b (by simp))
    have hm : matchPeerAt (genCore b.name b.added_at b.body ++ chainE bs)
        = some (b.name, b.added_at, b.body, chainE bs) :=
      matchPeerAt_genCore hn1 hn2 hd1 hd2 (lazyStar_body_chainE b.body bs hbody)
    have hne : genCore b.name b.added_at b.body ++ chainE bs ≠ [] := by
      simp [genCore, bannerLine]
    have e : chainE (b :: bs) = '\n' ::
        (genCore b.name b.added_at b.body ++ chainE bs) := rfl
    rw [e]
    rw [show ('\n' :: (genCore b.name b.added_at b.body ++ chainE bs)).length + 1
        = ((genCore b.name b.added_at b.body ++ chainE bs).length + 1) + 1 from by simp]
    rw [scanGo_cons_nl]
    rw [scanGo_step_match hm hne]
    rw [ih (fun x hx => hwf x (by simp [hx])) _]
    rfl

theorem pyHost_head {ai : Str} {c : Char} (h : (pyHost ai).head? = some c) :
    ai.head? = some c := by
  cases ai with
  | nil => simp [pyHost] at h
  | cons a as =>
    unfold pyHost at h
    by_cases ha : a = '/'
    · rw [List.takeWhile_cons_of_neg (by simp [ha])] at h
      simp at h
    · rw [List.takeWhile_cons_of_pos (by simp [ha])] at h
      simpa using h

theorem pyHost_mem {ai : Str} {c : Char} (h : c ∈ pyHost ai) : c ∈ ai := by
  rw [← List.takeWhile_append_dropWhile (fun c => decide (c ≠ '/')) ai]
  exact List.mem_append_left _ h

theorem noSub_pyHost {p ai : Str} (hp : p ≠ []) (h : noSub p ai) :
    noSub p (pyHost ai) := by
  apply noSub_of_append_left hp
  show noSub p (pyHost ai ++ ai.dropWhile (fun c => decide (c ≠ '/')))
  rw [show pyHost ai = ai.takeWhile (fun c => decide (c ≠ '/')) from rfl,
    List.takeWhile_append_dropWhile]
  exact h

theorem wfRec_dest {r : WgPeer} (h : WfPeerRecB r = true) :
    WfFieldB r.name = true ∧ WfFieldB r.public_key = true ∧
    WfFieldB r.allowed_ips = true ∧ WfFieldB r.added_at = true ∧
    WfOptB r.endpoint = true ∧ WfOptB r.preshared_key = true ∧
    r.allowed_ips = pyHost r.allowed_ips ++ sLit "/32" := by
  simp only [WfPeerRecB, Bool.and_eq_true, decide_eq_true_eq] at h
  exact ⟨h.1.1.1.1.1.1, h.1.1.1.1.1.2, h.1.1.1.1.2, h.1.1.1.2, h.1.1.2,
    h.1.2, h.2⟩

theorem extractPeer_rec (r : WgPeer) (h : WfPeerRecB r = true)
    (hh : r.latest_handshake = none) (hrx : r.transfer_rx = none)
    (htx : r.transfer_tx = none) :
    extractPeer (r.name, r.added_at,
      bodyOf r.public_key (pyHost r.allowed_ips) r.preshared_key r.endpoint)
      = some r := by
  obtain ⟨h1, h2, h3, h4, h5, h6, hshape⟩ := wfRec_dest h
  have d3 := wfField_dest h3
  have hiph : ∀ c, (pyHost r.allowed_ips).head? = some c → pyIsSpace c = false :=
    fun c hc => pyStrip_stable_head d3.2.2.1 (pyHost_head hc)
  have hipn : '\n' ∉ pyHost r.allowed_ips := fun hm => d3.2.1 (pyHost_mem hm)
  have hstrip : pyStrip (pyHost r.allowed_ips ++ sLit "/32")
      = pyHost r.allowed_ips ++ sLit "/32" := by
    rw [← hshape]
    exact d3.2.2.1
  have hb := extractPeer_body r.name r.added_at r.public_key
    (pyHost r.allowed_ips) r.preshared_key r.endpoint [] h2 hipn
    (noSub_pyHost (by decide) d3.2.2.2.2.1)
    (noSub_pyHost (by decide) d3.2.2.2.2.2.1)
    (noSub_pyHost (by decide) d3.2.2.2.2.2.2.2)
    (noSub_pyHost (by decide) d3.2.2.2.2.2.2.1)
    hiph hstrip (wfOpt_some h6) (wfOpt_some h5) (Or.inl rfl)
  rw [List.append_nil] at hb
  rw [hb]
  congr 1
  have hr : r = { name := r.name
                  public_key := r.public_key
                  allowed_ips := r.allowed_ips
                  added_at := r.added_at
                  endpoint := r.endpoint
                  preshared_key := r.preshared_key
                  latest_handshake := r.latest_handshake
                  transfer_rx := r.transfer_rx
                  transfer_tx := r.transfer_tx } := rfl
  rw [hr, hh, hrx, htx]
  simp [(wfField_dest h1).2.2.1, (wfField_dest h4).2.2.1, ← hshape]

theorem wfRaw_recRaw {r : WgPeer} (h : WfPeerRecB r = true) :
    WfRawB (recRaw r) = true := by
  obtain ⟨h1, h2, h3, h4, h5, h6, _⟩ := wfRec_dest h
  have d1 := wfField_dest h1
  have d4 := wfField_dest h4
  simp only [WfRawB, recRaw, WfHdrB, Bool.and_eq_true, decide_eq_true_eq,
    List.all_eq_true]
  refine ⟨⟨⟨d1.1, ?_⟩, d4.1, ?_⟩, ?_⟩
  · intro c hc; simp; intro he; subst he; exact d1.2.1 hc
  · intro c hc; simp; intro he; subst he; exact d4.2.1 hc
  · exact noSub_iff.mpr
      (noSub_nlq_bodyOf r.public_key (pyHost r.allowed_ips) r.preshared_key
        r.endpoint (wfField_dest h2).2.1
        (fun hm => (wfField_dest h3).2.1 (pyHost_mem hm))
        (wfOpt_nl h6) (wfOpt_nl h5))

theorem parse_encodeAll (rs : List WgPeer)
    (h : ∀ r ∈ rs, WfPeerRecB r = true ∧ r.latest_handshake = none ∧
      r.transfer_rx = none ∧ r.transfer_tx = none) :
    parse_peers (encodeAll rs) = rs := by
  unfold parse_peers scanPeers
  rw [encodeAll_chainE]
  rw [scanGo_chainE (rs.map recRaw)
    (fun b hb => by
      obtain ⟨r, hr, rfl⟩ := List.mem_map.mp hb
      exact wfRaw_recRaw (h r hr).1) true]
  rw [List.map_map]
  revert h
  induction rs with
  | nil => intro _; rfl
  | cons r t ih =>
    intro hl
    rw [List.map_cons, List.filterMap_cons]
    obtain ⟨hw, hh, hrx, htx⟩ := hl r (by simp)
    have he : extractPeer ((recRaw r).name, (recRaw r).added_at, (recRaw r).body)
        = some r := extractPeer_rec r hw hh hrx htx
    simp only [Function.comp_apply]
    rw [he]
    exact congrArg _ (ih (fun x hx => hl x (by simp [hx])))

/-- **C1 (amended).** For every decoded record whose six fields are
well-formed — non-empty, single-line, whitespace-stable, free of the
banner fragment and of the four key tokens, with the address in canonical
`host/32` form — and which carries no runtime status, decoding the text
produced by encoding it yields exactly that one record; and for every
canonical store of such records, `decode (encode (decode text))` equals
`decode text`.  (The original claim, which required the fields only to be
non-empty single-line strings, is refuted by
`claim_C1_counterexample`.) -/
theorem claim_C1 :
    (∀ r : WgPeer, WfPeerRecB r = true →
      r.latest_handshake = none → r.transfer_rx = none → r.transfer_tx = none →
      parse_peers (encodePeer r) = [r])
    ∧ (∀ (P : Str) (ss : List PeerSpec), noSub (sLit "# =") P →
        (∀ s ∈ ss, WfSpecB s = true) →
        (∀ s ∈ ss, WfPeerRecB (specPeer s) = true) →
        parse_peers (encodeAll (parse_peers (storeOf P ss)))
          = parse_peers (storeOf P ss)) := by
  constructor
  · intro r hw hh hrx htx
    have e : encodeAll [r] = encodePeer r := by
      show encodePeer r ++ [] = encodePeer r
      exact List.append_nil _
    rw [← e]
    exact parse_encodeAll [r]
      (by intro x hx; simp at hx; subst hx; exact ⟨hw, hh, hrx, htx⟩)
  · intro P ss hP hss hrec
    rw [parse_storeOf P ss hP hss]
    apply parse_encodeAll
    intro x hx
    obtain ⟨s, hs, rfl⟩ := List.mem_map.mp hx
    exact ⟨hrec s hs, rfl, rfl, rfl⟩

/-- Counterexample to C1 as stated: `rBad`'s fields are all non-empty
single-line strings, yet its preshared key contains the text
`Endpoint = b`, so decoding its encoded block yields a record whose
endpoint is `b` instead of the original `none`. -/
theorem claim_C1_counterexample :
    rBad.preshared_key = some (sLit "xEndpoint = b") ∧
    rBad.endpoint = none ∧
    (sLit "xEndpoint = b" ≠ [] ∧ '\n' ∉ sLit "xEndpoint = b") ∧
    parse_peers (encodePeer rBad)
      = [{ rBad with endpoint := some (sLit "b") }] ∧
    parse_peers (encodePeer rBad) ≠ [rBad] := by decide

/-- Witness for C1: the round trip on the concrete record of `spec5`. -/
theorem claim_C1_witness :
    parse_peers (encodePeer (specPeer spec5)) = [specPeer spec5] :=
  claim_C1.1 (specPeer spec5) (by decide) rfl rfl rfl

theorem glast_append {A B : Str} (h : B ≠ []) :
    (A ++ B).getLast? = B.getLast? := by
  rw [← List.head?_reverse, ← List.head?_reverse, List.reverse_append]
  cases hB : B.reverse with
  | nil =>
    exact absurd (by simpa using congrArg List.reverse hB) h
  | cons c cs => simp

theorem pyRStrip_stable_last {v : Str} {c : Char} (h : pyRStrip v = v)
    (hc : v.getLast? = some c) : pyIsSpace c = false := by
  by_contra hsp
  simp only [Bool.not_eq_false] at hsp
  cases hrev : v.reverse with
  | nil => rw [← List.head?_reverse, hrev] at hc; simp at hc
  | cons d ds =>
    have hd : d = c := by
      rw [← List.head?_reverse, hrev] at hc
      simpa using hc
    subst hd
    have hlen := congrArg List.length h
    rw [pyRStrip, hrev, List.dropWhile_cons_of_pos hsp] at hlen
    rw [List.length_reverse] at hlen
    have h1 : (ds.dropWhile pyIsSpace).length ≤ ds.length := dropWhile_len_le _ _
    have h2 : v.reverse.length = v.length := List.length_reverse v
    rw [hrev] at h2
    simp at h2
    omega

theorem pyRStrip_concat_nl {Z : Str}
    (h : Z = [] ∨ ∃ c, Z.getLast? = some c ∧ pyIsSpace c = false) :
    pyRStrip (Z ++ ['\n']) = Z := by
  unfold pyRStrip
  rw [List.reverse_append]
  show List.reverse (List.dropWhile pyIsSpace ('\n' :: Z.reverse)) = Z
  rw [List.dropWhile_cons_of_pos (by decide)]
  rcases h with rfl | ⟨c, hc, hcs⟩
  · rfl
  · cases hrev : Z.reverse with
    | nil => rw [← List.head?_reverse, hrev] at hc; simp at hc
    | cons d ds =>
      have hd : d = c := by
        rw [← List.head?_reverse, hrev] at hc
        simpa using hc
      subst hd
      rw [List.dropWhile_cons_of_neg (by simp [hcs]), ← hrev,
        List.reverse_reverse]

theorem bodyOf_last (pk ip : Str) (psk ep : Option Str)
    (hps : ∀ k, psk = some k → WfFieldB k = true)
    (hepw : ∀ e, ep = some e → WfFieldB e = true) :
    ∃ c, (bodyOf pk ip psk ep).getLast? = some c ∧ pyIsSpace c = false := by
  cases ep with
  | some e =>
    have hw := wfField_dest (hepw e rfl)
    have he : e ≠ [] := hw.1
    have hsplit : bodyOf pk ip psk (some e)
        = (sLit "PublicKey = " ++ pk ++ sLit "\nAllowedIPs = " ++ ip ++
            sLit "/32" ++ optLine "PresharedKey = " psk) ++
          ('\n' :: (sLit "Endpoint = " ++ e)) := by
      simp [bodyOf, optLine, he, List.append_assoc]
    rw [hsplit, glast_append (by simp)]
    rw [show ('\n' :: (sLit "Endpoint = " ++ e))
        = ['\n'] ++ (sLit "Endpoint = " ++ e) from rfl]
    rw [glast_append (by simp [sLit]), glast_append he]
    cases hg : e.getLast? with
    | none => exact absurd (by simpa using hg) he
    | some c => exact ⟨c, rfl, pyStrip_stable_last hw.2.2.1 hg⟩
  | none =>
    cases psk with
    | some k =>
      have hw := wfField_dest (hps k rfl)
      have hk : k ≠ [] := hw.1
      have hsplit : bodyOf pk ip (some k) none
          = (sLit "PublicKey = " ++ pk ++ sLit "\nAllowedIPs = " ++ ip ++
              sLit "/32") ++ ('\n' :: (sLit "PresharedKey = " ++ k)) := by
        simp [bodyOf, optLine, hk, List.append_assoc]
      rw [hsplit, glast_append (by simp)]
      rw [show ('\n' :: (sLit "PresharedKey = " ++ k))
          = ['\n'] ++ (sLit "PresharedKey = " ++ k) from rfl]
      rw [glast_append (by simp [sLit]), glast_append hk]
      cases hg : k.getLast? with
      | none => exact absurd (by simpa using hg) hk
      | some c => exact ⟨c, rfl, pyStrip_stable_last hw.2.2.1 hg⟩
    | none =>
      have hsplit : bodyOf pk ip none none
          = (sLit "PublicKey = " ++ pk ++ sLit "\nAllowedIPs = " ++ ip) ++
            sLit "/32" := by
        simp [bodyOf, optLine, List.append_assoc]
      rw [hsplit, glast_append (by simp [sLit])]
      exact ⟨'2', by decide, by decide⟩

theorem genCore_gather (n d b : Str) :
    genCore n d b = (bannerLine ++ '\n' :: (sLit "# ClientName: " ++ n ++
      sLit "\n# AddedAt: " ++ d ++ '\n' :: (bannerLine ++
        sLit "\n[Peer]\n"))) ++ b := by
  simp [genCore, List.append_assoc]

theorem genCore_ne_nil (n d b : Str) : genCore n d b ≠ [] := by
  simp [genCore, bannerLine]

theorem chainN_split : ∀ (bs : List RawBlock),
    (∀ b ∈ bs, ∃ c, b.body.getLast? = some c ∧ pyIsSpace c = false) →
    ∃ Y, chainN bs = Y ++ ['\n'] ∧
      (Y = [] ∨ ∃ c, Y.getLast? = some c ∧ pyIsSpace c = false) := by
  intro bs
  induction bs with
  | nil => intro _; exact ⟨[], rfl, Or.inl rfl⟩
  | cons b bs ih =>
    intro h
    obtain ⟨Y', hY', hprop⟩ := ih (fun x hx => h x (by simp [hx]))
    obtain ⟨c, hcl, hcs⟩ := h b (by simp)
    have hbne : b.body ≠ [] := fun hb => by rw [hb] at hcl; simp at hcl
    refine ⟨'\n' :: '\n' :: (genCore b.name b.added_at b.body ++ Y'), ?_, ?_⟩
    · show chainN (b :: bs) = _
      rw [chainN, hY']
      simp [List.append_assoc]
    · right
      rcases hprop with rfl | ⟨c2, hc2, hc2s⟩
      · refine ⟨c, ?_, hcs⟩
        rw [show ('\n' :: '\n' :: (genCore b.name b.added_at b.body ++ ([] : Str)))
            = ['\n', '\n'] ++ (genCore b.name b.added_at b.body ++ []) from rfl]
        rw [List.append_nil, glast_append (genCore_ne_nil _ _ _),
          genCore_gather, glast_append hbne]
        exact hcl
      · have hYne : Y' ≠ [] := fun hy => by rw [hy] at hc2; simp at hc2
        refine ⟨c2, ?_, hc2s⟩
        rw [show ('\n' :: '\n' :: (genCore b.name b.added_at b.body ++ Y'))
            = ['\n', '\n'] ++ (genCore b.name b.added_at b.body ++ Y') from rfl]
        rw [glast_append (by simp [hYne]), glast_append hYne]
        exact hc2

theorem chainN_snoc : ∀ (bs : List RawBlock) (b : RawBlock),
    chainN bs ++ ('\n' :: (genCore b.name b.added_at b.body ++ ['\n']))
      = chainN (bs ++ [b]) := by
  intro bs b
  induction bs with
  | nil => rfl
  | cons b0 bs ih =>
    have e : chainN (b0 :: bs)
        = '\n' :: '\n' :: (genCore b0.name b0.added_at b0.body ++ chainN bs) := rfl
    have e2 : chainN ((b0 :: bs) ++ [b])
        = '\n' :: '\n' :: (genCore b0.name b0.added_at b0.body ++ chainN (bs ++ [b])) := rfl
    rw [e, e2, ← ih]
    simp [List.append_assoc]

theorem rstrip_store (P : Str) (bs : List RawBlock)
    (hPr : pyRStrip P = P)
    (hlast : ∀ b ∈ bs, ∃ c, b.body.getLast? = some c ∧ pyIsSpace c = false) :
    pyRStrip (P ++ chainN bs) ++ ['\n'] = P ++ chainN bs := by
  obtain ⟨Y, hY, hprop⟩ := chainN_split bs hlast
  rw [hY, show P ++ (Y ++ ['\n']) = (P ++ Y) ++ ['\n'] from by
    simp [List.append_assoc]]
  rw [pyRStrip_concat_nl ?h]
  case h =>
    rcases hprop with rfl | ⟨c, hc, hcs⟩
    · rw [List.append_nil]
      cases hP : P.getLast? with
      | none => left; simpa using hP
      | some c => right; exact ⟨c, rfl, pyRStrip_stable_last hPr hP⟩
    · right
      have hYne : Y ≠ [] := fun hy => by rw [hy] at hc; simp at hc
      exact ⟨c, by rw [glast_append hYne]; exact hc, hcs⟩

theorem add_storeOf (P : Str) (ss : List PeerSpec) (s : PeerSpec)
    (hPr : pyRStrip P = P)
    (hss : ∀ x ∈ ss, WfSpecB x = true) (hs : WfSpecB s = true)
    (hname : check_name_conflict s.name (storeOf P ss) = false)
    (hip : check_ip_conflict s.assigned_ip (storeOf P ss) = Except.ok false) :
    add_peer (storeOf P ss) s.name s.public_key s.assigned_ip s.added_at
        s.endpoint s.preshared_key = Except.ok (storeOf P (ss ++ [s]))
    ∧ storeOf P (ss ++ [s]) = storeOf P ss ++ ('\n' :: (genCore s.name s.added_at
        (bodyOf s.public_key s.assigned_ip s.preshared_key s.endpoint) ++ ['\n'])) := by
  have hext : storeOf P (ss ++ [s]) = storeOf P ss ++ ('\n' ::
      (genCore s.name s.added_at
        (bodyOf s.public_key s.assigned_ip s.preshared_key s.endpoint) ++ ['\n'])) := by
    unfold storeOf storeTextR
    rw [List.map_append]
    show P ++ chainN (ss.map specRaw ++ [specRaw s]) = _
    rw [← chainN_snoc (ss.map specRaw) (specRaw s)]
    simp [specRaw, List.append_assoc]
  refine ⟨?_, hext⟩
  unfold add_peer
  rw [hname]
  simp only [Bool.false_eq_true, if_false]
  rw [hip]
  have hlast : ∀ b ∈ ss.map specRaw,
      ∃ c, b.body.getLast? = some c ∧ pyIsSpace c = false := by
    intro b hb
    obtain ⟨x, hx, rfl⟩ := List.mem_map.mp hb
    obtain ⟨_, _, _, _, h5, h6⟩ := wfSpec_dest (hss x hx)
    exact bodyOf_last x.public_key x.assigned_ip x.preshared_key x.endpoint
      (wfOpt_some h6) (wfOpt_some h5)
  have hrt : pyRStrip (storeOf P ss) ++ ['\n'] = storeOf P ss :=
    rstrip_store P (ss.map specRaw) hPr hlast
  show Except.ok (pyRStrip (storeOf P ss) ++ '\n' ::
      (generate_peer_block s.name s.public_key s.assigned_ip s.added_at
        s.endpoint s.preshared_key ++ ['\n'])) = _
  rw [gen_eq, hext]
  rw [show ('\n' :: genCore s.name s.added_at
        (bodyOf s.public_key s.assigned_ip s.preshared_key s.endpoint)) ++ ['\n']
      = '\n' :: (genCore s.name s.added_at
        (bodyOf s.public_key s.assigned_ip s.preshared_key s.endpoint) ++ ['\n'])
    from rfl]
  rw [show pyRStrip (storeOf P ss) ++ '\n' :: ('\n' ::
      (genCore s.name s.added_at
        (bodyOf s.public_key s.assigned_ip s.preshared_key s.endpoint) ++ ['\n']))
      = (pyRStrip (storeOf P ss) ++ ['\n']) ++ ('\n' ::
        (genCore s.name s.added_at
          (bodyOf s.public_key s.assigned_ip s.preshared_key s.endpoint) ++ ['\n'])) from by
    simp]
  rw [hrt]

/-- **C4 (amended).** On a canonical store (well-formed prefix and
records) with no name or address conflict against the new record, add
succeeds and the store afterwards is byte-for-byte the old document
followed by the newly rendered block — prior content, including the
interface prefix and every existing block, is preserved and the new block
sits at the end — and a subsequent decode returns the previous records in
order followed by the new record with all supplied fields.  (For a store
whose text ends in extra trailing whitespace the byte-for-byte-prefix
part of the original claim is false — `add` first strips trailing
whitespace — see `claim_C4_counterexample`.) -/
theorem claim_C4 :
    ∀ (P : Str) (ss : List PeerSpec) (s : PeerSpec),
      WfPrefixB P = true → (∀ x ∈ ss, WfSpecB x = true) → WfSpecB s = true →
      check_name_conflict s.name (storeOf P ss) = false →
      check_ip_conflict s.assigned_ip (storeOf P ss) = Except.ok false →
      addPeerState (some (storeOf P ss)) s.name s.public_key s.assigned_ip
          s.added_at s.endpoint s.preshared_key
        = (some (storeOf P (ss ++ [s])), Except.ok ())
      ∧ storeOf P (ss ++ [s]) = storeOf P ss ++ ('\n' ::
          (genCore s.name s.added_at
            (bodyOf s.public_key s.assigned_ip s.preshared_key s.endpoint) ++ ['\n']))
      ∧ parse_peers (storeOf P (ss ++ [s])) = ss.map specPeer ++ [specPeer s] := by
  intro P ss s hP hss hs hname hip
  have hPr : pyRStrip P = P := by
    have := hP
    simp only [WfPrefixB, Bool.and_eq_true, decide_eq_true_eq] at this
    exact this.2
  have hPn : noSub (sLit "# =") P := by
    have := hP
    simp only [WfPrefixB, Bool.and_eq_true, decide_eq_true_eq] at this
    exact noSub_iff.mp this.1
  obtain ⟨hadd, hext⟩ := add_storeOf P ss s hPr hss hs hname hip
  refine ⟨?_, hext, ?_⟩
  · simp only [addPeerState, read_config]
    rw [hadd]
  · rw [parse_storeOf P (ss ++ [s]) hPn
      (fun x hx => by
        rcases List.mem_append.mp hx with h | h
        · exact hss x h
        · simp at h; subst h; exact hs)]
    simp

/-- Counterexample to C4 as stated: on a store that ends with a blank
line, add succeeds but the first bytes of the new document are not the
old document — `content.rstrip()` dropped the trailing blank line — so
prior document content is not preserved byte-for-byte. -/
theorem claim_C4_counterexample :
    check_name_conflict (sLit "six") cStoreNL = false ∧
    check_ip_conflict (sLit "10.8.0.6") cStoreNL = Except.ok false ∧
    add_peer cStoreNL (sLit "six") (sLit "K6") (sLit "10.8.0.6")
        (sLit "2024-01-02") none none
      = Except.ok (storeOf cIface [spec5, spec6]) ∧
    (storeOf cIface [spec5, spec6]).take cStoreNL.length ≠ cStoreNL := by
  decide

/-- Witness for C4: adding `spec6` to the canonical one-record store. -/
theorem claim_C4_witness :
    addPeerState (some (storeOf cIface [spec5])) spec6.name spec6.public_key
        spec6.assigned_ip spec6.added_at spec6.endpoint spec6.preshared_key
      = (some (storeOf cIface ([spec5] ++ [spec6])), Except.ok ())
    ∧ storeOf cIface ([spec5] ++ [spec6]) = storeOf cIface [spec5] ++ ('\n' ::
        (genCore spec6.name spec6.added_at
          (bodyOf spec6.public_key spec6.assigned_ip spec6.preshared_key
            spec6.endpoint) ++ ['\n']))
    ∧ parse_peers (storeOf cIface ([spec5] ++ [spec6]))
        = [spec5].map specPeer ++ [specPeer spec6] :=
  claim_C4 cIface [spec5] spec6 (by decide) (by decide) (by decide)
    (by decide) (by decide)

/- ==== removal pattern computation ==== -/

theorem dropPref_append_both (p q s : Str) :
    dropPref (p ++ q) (p ++ s) = dropPref q s := by
  induction p with
  | nil => rfl
  | cons c cs ih => simpa [dropPref] using ih

theorem dropPref_name_mismatch : ∀ {n : Str} {m : Str}, n ≠ m → '\n' ∉ n →
    '\n' ∉ m → ∀ t u, dropPref (n ++ '\n' :: t) (m ++ '\n' :: u) = none := by
  intro n
  induction n with
  | nil =>
    intro m hne h1 h2 t u
    cases m with
    | nil => exact absurd rfl hne
    | cons d m' =>
      have hd : ¬ ('\n' = d) := fun he => h2 (by rw [← he]; simp)
      exact dropPref_cons_ne hd
  | cons c n' ih =>
    intro m hne h1 h2 t u
    cases m with
    | nil =>
      have hc : ¬ (c = '\n') := fun he => h1 (by rw [he]; simp)
      rw [List.cons_append]
      exact dropPref_cons_ne hc
    | cons d m' =>
      by_cases hcd : c = d
      · subst hcd
        have hne' : n' ≠ m' := fun he => hne (by rw [he])
        rw [List.cons_append, List.cons_append]
        show dropPref (c :: (n' ++ '\n' :: t)) (c :: (m' ++ '\n' :: u)) = none
        simp only [dropPref, if_pos rfl]
        exact ih hne' (fun hm => h1 (by simp [hm])) (fun hm => h2 (by simp [hm])) t u
      · exact dropPref_cons_ne hcd

theorem matchRemoveCore_genCore {name date body T C R : Str}
    (hd1 : date ≠ []) (hd2 : '\n' ∉ date)
    (hlz : lazyStarBanner (body ++ T) = (C, R)) :
    matchRemoveCore name (genCore name date body ++ T) = some R := by
  have hlp : lazyPlus matchHdrEnd (date ++ ('\n' ::
      (bannerLine ++ (sLit "\n[Peer]\n" ++ (body ++ T))))) = some (date, body ++ T) := by
    apply lazyPlus_exact _ _ _ _ hd1 ?_ (matchHdrEnd_block body T)
    intro j hj hjl
    apply matchHdrEnd_none_of_head
    exact head_drop_append_ne hjl hd2 _
  have e0 : genCore name date body ++ T =
      sLit "# " ++ (List.replicate 42 '=' ++ ('\n' ::
        ((sLit "# ClientName: " ++ name ++ sLit "\n# AddedAt: ") ++
          (date ++ ('\n' :: (bannerLine ++ (sLit "\n[Peer]\n" ++ (body ++ T)))))))) := by
    simp only [genCore, bannerLine_eq, List.append_assoc, List.cons_append]
  rw [e0]
  simp only [matchRemoveCore, dropPref_self_append,
    eqRunNl_replicate 42 (by omega), hlp, hlz]

theorem matchRemoveCore_mismatch {name m : Str} (hne : name ≠ m)
    (hn : '\n' ∉ name) (hm : '\n' ∉ m) (d b T : Str) :
    matchRemoveCore name (genCore m d b ++ T) = none := by
  have e0 : genCore m d b ++ T =
      sLit "# " ++ (List.replicate 42 '=' ++ ('\n' ::
        (sLit "# ClientName: " ++
          (m ++ ('\n' :: (sLit "# AddedAt: " ++
            (d ++ ('\n' :: (bannerLine ++ (sLit "\n[Peer]\n" ++ (b ++ T))))))))))) := by
    simp only [genCore, bannerLine_eq, junc_addedAt, List.append_assoc,
      List.cons_append]
  rw [e0]
  have hpat : sLit "# ClientName: " ++ name ++ sLit "\n# AddedAt: "
      = sLit "# ClientName: " ++ (name ++ '\n' :: sLit "# AddedAt: ") := by
    simp only [List.append_assoc]
    rfl
  have hmm : dropPref (sLit "# ClientName: " ++ name ++ sLit "\n# AddedAt: ")
      (sLit "# ClientName: " ++
        (m ++ ('\n' :: (sLit "# AddedAt: " ++
          (d ++ ('\n' :: (bannerLine ++ (sLit "\n[Peer]\n" ++ (b ++ T))))))))) = none := by
    rw [hpat, dropPref_append_both]
    exact dropPref_name_mismatch hne hn hm _ _
  simp only [matchRemoveCore, dropPref_self_append,
    eqRunNl_replicate 42 (by omega), hmm]

theorem matchRemoveCore_peerHdr (name b T : Str) :
    matchRemoveCore name (bannerLine ++ (sLit "\n[Peer]\n" ++ (b ++ T))) = none := by
  have e0 : bannerLine ++ (sLit "\n[Peer]\n" ++ (b ++ T))
      = sLit "# " ++ (List.replicate 42 '=' ++ ('\n' ::
          (sLit "[Peer]\n" ++ (b ++ T)))) := rfl
  rw [e0]
  have hmm : dropPref (sLit "# ClientName: " ++ name ++ sLit "\n# AddedAt: ")
      (sLit "[Peer]\n" ++ (b ++ T)) = none := by
    rw [show sLit "# ClientName: " ++ name ++ sLit "\n# AddedAt: "
        = '#' :: (sLit " ClientName: " ++ name ++ sLit "\n# AddedAt: ") from by
      simp [sLit]]
    rw [show sLit "[Peer]\n" ++ (b ++ T) = '[' :: (sLit "Peer]\n" ++ (b ++ T)) from rfl]
    exact dropPref_cons_ne (by decide)
  simp only [matchRemoveCore, dropPref_self_append,
    eqRunNl_replicate 42 (by omega), hmm]

theorem matchRemoveCore_needs {name s r : Str}
    (h : matchRemoveCore name s = some r) :
    (dropPref (sLit "# =") s).isSome = true := by
  unfold matchRemoveCore at h
  split at h
  · exact absurd h (by simp)
  · rename_i s1 h1
    split at h
    · exact absurd h (by simp)
    · rename_i s2 h2
      obtain ⟨rest, hrest⟩ := eqRunNl_shape h2
      have hs : s = sLit "# " ++ s1 := dropPref_eq_some.mp h1
      rw [hs, hrest]
      rfl

theorem matchRemoveAt_none_of {name s : Str}
    (h1 : dropPref (sLit "# =") s = none)
    (h2 : ∀ t, s = '\n' :: t → dropPref (sLit "# =") t = none) :
    matchRemoveAt name s = none := by
  unfold matchRemoveAt
  cases s with
  | nil =>
    cases hc : matchRemoveCore name [] with
    | none => rfl
    | some r =>
      have := matchRemoveCore_needs hc
      simp [dropPref] at this
  | cons c cs =>
    by_cases hcn : c = '\n'
    · subst hcn
      show matchRemoveCore name cs = none
      cases hc : matchRemoveCore name cs with
      | none => rfl
      | some r =>
        have hn := matchRemoveCore_needs hc
        rw [h2 cs rfl] at hn
        simp at hn
    · split
      · rename_i s1 heq
        injection heq with hh
        exact absurd hh hcn
      · cases hc : matchRemoveCore name (c :: cs) with
        | none => rfl
        | some r =>
          have hn := matchRemoveCore_needs hc
          rw [h1] at hn
          simp at hn

theorem matchRemoveCore_rest_length {name s r : Str}
    (h : matchRemoveCore name s = some r) : r.length < s.length := by
  unfold matchRemoveCore at h
  split at h
  · exact absurd h (by simp)
  · rename_i s1 h1
    split at h
    · exact absurd h (by simp)
    · rename_i s2 h2
      split at h
      · exact absurd h (by simp)
      · rename_i t1 h3
        split at h
        · exact absurd h (by simp)
        · rename_i g t2 h4
          injection h with h
          subst h
          obtain ⟨t', ht1, ht2⟩ := lazyPlus_inv h4
          have e0 := matchHdrEnd_length ht2
          have e1 := dropPref_length h1
          have e2 := eqRunNl_length h2
          have e3 := dropPref_length h3
          have e4 : (lazyStarBanner t2).2.length ≤ t2.length := lazyStarBanner_rest_le t2
          simp [sLit] at e1
          omega

theorem matchRemoveAt_rest_length {name s r : Str}
    (h : matchRemoveAt name s = some r) : r.length < s.length := by
  unfold matchRemoveAt at h
  split at h
  · rename_i s1
    have := matchRemoveCore_rest_length h
    simpa using Nat.lt_succ_of_lt this
  · exact matchRemoveCore_rest_length h

theorem subnGo_fuel (name : Str) : ∀ (f : Nat) (s : Str), s.length < f →
    subnGo name f s = subnGo name (s.length + 1) s := by
  intro f
  induction f using Nat.strong_induction_on with
  | _ f ih =>
    intro s hf
    match f, s with
    | 0, s => omega
    | f + 1, [] => rfl
    | f + 1, c :: cs =>
      rw [subnGo, subnGo]
      cases hm : matchRemoveAt name (c :: cs) with
      | some rest =>
        have hr := matchRemoveAt_rest_length hm
        simp only [List.length_cons] at hf hr ⊢
        rw [ih f (by omega) rest (by omega),
          ih (cs.length + 1) (by omega) rest (by omega)]
      | none =>
        simp only [List.length_cons] at hf ⊢
        rw [ih f (by omega) cs (by omega)]

theorem subnGo_step_n {name : Str} {c : Char} {cs : Str} (f : Nat)
    (hm : matchRemoveAt name (c :: cs) = none) :
    subnGo name (f + 1) (c :: cs)
      = (c :: (subnGo name f cs).1, (subnGo name f cs).2) := by
  rw [subnGo, hm]

theorem subnGo_step_m {name : Str} {c : Char} {cs rest : Str} (f : Nat)
    (hm : matchRemoveAt name (c :: cs) = some rest) :
    subnGo name (f + 1) (c :: cs)
      = ((subnGo name f rest).1, (subnGo name f rest).2 + 1) := by
  rw [subnGo, hm]

theorem subnGo_walk (name : Str) : ∀ (A X : Str),
    (∀ j, j < A.length → matchRemoveAt name (A.drop j ++ X) = none) →
    subnGo name ((A ++ X).length + 1) (A ++ X)
      = (A ++ (subnGo name (X.length + 1) X).1, (subnGo name (X.length + 1) X).2) := by
  intro A
  induction A with
  | nil => intro X h; simp
  | cons c A' ih =>
    intro X h
    have h0 : matchRemoveAt name (c :: (A' ++ X)) = none := by
      have := h 0 (by simp)
      simpa using this
    rw [List.cons_append]
    rw [show ((c :: (A' ++ X)).length + 1) = ((A' ++ X).length + 1) + 1 from by simp]
    rw [subnGo_step_n _ h0]
    rw [ih X (fun j hj => by
      have := h (j + 1) (by simp only [List.length_cons]; omega)
      simpa using this)]
    simp

theorem noSub_hash_optTail (psk ep : Option Str)
    (hps : ∀ k, psk = some k → WfFieldB k = true)
    (hepw : ∀ e, ep = some e → WfFieldB e = true) :
    noSub (sLit "# =")
      (optLine "PresharedKey = " psk ++ optLine "Endpoint = " ep) := by
  have hE : noSub (sLit "# =") (optLine "Endpoint = " ep) := by
    cases ep with
    | none => exact noSub_nil (by decide)
    | some e =>
      by_cases he : e = []
      · simp only [optLine, if_pos he]
        exact noSub_nil (by decide)
      · simp only [optLine, if_neg he]
        apply noSub_cons_of (by rfl)
        exact noSub_append_nl (by decide)
          ((wfField_dest (hepw e rfl)).2.2.2.1)
  cases psk with
  | none => simpa [optLine] using hE
  | some k =>
    by_cases hk : k = []
    · simpa [optLine, if_pos hk] using hE
    · simp only [optLine, if_neg hk, List.cons_append, List.append_assoc]
      apply noSub_cons_of (by rfl)
      apply noSub_append_nl (by decide)
      apply noSub_append_head (by decide) ((wfField_dest (hps k rfl)).2.2.2.1) hE
      intro e2 he2
      cases ep with
      | none =>
        by_cases h0 : optLine "Endpoint = " none = ([] : Str)
        · rw [h0] at he2; simp at he2
        · simp [optLine] at h0
      | some e =>
        by_cases he : e = []
        · simp only [optLine, if_pos he] at he2; simp at he2
        · simp only [optLine, if_neg he] at he2
          injection he2 with he2
          subst he2
          decide

theorem noSub_hash_bodyOf (pk ip : Str) (psk ep : Option Str)
    (hpk : WfFieldB pk = true) (hip : WfFieldB ip = true)
    (hps : ∀ k, psk = some k → WfFieldB k = true)
    (hepw : ∀ e, ep = some e → WfFieldB e = true) :
    noSub (sLit "# =") (bodyOf pk ip psk ep) := by
  have hbody : bodyOf pk ip psk ep
      = sLit "PublicKey = " ++ (pk ++ ('\n' :: (sLit "AllowedIPs = " ++
        (ip ++ (sLit "/32" ++ (optLine "PresharedKey = " psk ++
          optLine "Endpoint = " ep)))))) := by
    simp only [bodyOf, List.append_assoc, junc_allowed, List.cons_append]
  rw [hbody]
  apply noSub_append_nl (by decide)
  apply noSub_append_head (by decide) (wfField_dest hpk).2.2.2.1 ?hb
  · intro e2 he2
    simp at he2
    subst he2
    decide
  case hb =>
    apply noSub_cons_of (by rfl)
    apply noSub_append_nl (by decide)
    apply noSub_append_head (by decide) (wfField_dest hip).2.2.2.1 ?hb2
    · intro e2 he2
      rw [show sLit "/32" ++ (optLine "PresharedKey = " psk ++
          optLine "Endpoint = " ep) = '/' :: (sLit "32" ++
          (optLine "PresharedKey = " psk ++ optLine "Endpoint = " ep))
        from rfl] at he2
      simp at he2
      subst he2
      decide
    case hb2 =>
      apply noSub_append_nl (by decide)
      exact noSub_hash_optTail psk ep hps hepw

theorem dropPref_hash_ne {c : Char} (h : c ≠ '#') (X : Str) :
    dropPref (sLit "# =") (c :: X) = none := by
  rw [show sLit "# =" = '#' :: sLit " =" from rfl]
  exact dropPref_cons_ne (fun he => h he.symm)

theorem matchRemoveAt_nl_eq (name t : Str) :
    matchRemoveAt name ('\n' :: t) = matchRemoveCore name t := rfl

theorem matchRemoveAt_core_of_head {name s : Str} (h : s.head? ≠ some '\n') :
    matchRemoveAt name s = matchRemoveCore name s := by
  unfold matchRemoveAt
  cases s with
  | nil => rfl
  | cons c cs =>
    split
    · rename_i s1 heq
      injection heq with hh ht
      exact absurd (by rw [hh]; rfl) h
    · rfl

theorem noSub_G1t (m d : Str)
    (hmW : noSub (sLit "# =") m) (hdW : noSub (sLit "# =") d) :
    noSub (sLit "# =")
      ((' ' :: List.replicate 42 '=') ++ ('\n' :: (sLit "# ClientName:" ++
        ((' ' :: m) ++ ('\n' :: (sLit "# AddedAt:" ++
          ((' ' :: d) ++ ['\n']))))))) := by
  apply noSub_append_nl ?h42
  case h42 =>
    intro hmem
    rcases List.mem_cons.mp hmem with h | h
    · exact absurd h (by decide)
    · rw [List.mem_replicate] at h
      exact absurd h.2 (by decide)
  apply noSub_cons_of (dropPref_hash_ne (by decide) _)
  apply noSub_append_last' (by decide) (noSub_iff.mp (by decide)) ?hb2
    (show (sLit "# ClientName:").getLast? = some ':' from by decide)
    (by decide)
  case hb2 =>
    apply noSub_append_head (by decide) ?ha3 ?hb3
    case ha3 => exact noSub_cons_of (dropPref_hash_ne (by decide) _) hmW
    case hb3 =>
      apply noSub_cons_of (dropPref_hash_ne (by decide) _)
      apply noSub_append_last' (by decide) (noSub_iff.mp (by decide)) ?hb4
        (show (sLit "# AddedAt:").getLast? = some ':' from by decide)
        (by decide)
      case hb4 =>
        apply noSub_append_head (by decide) ?ha5 (noSub_iff.mp (by decide))
        · intro e he
          simp at he
          subst he
          decide
        case ha5 => exact noSub_cons_of (dropPref_hash_ne (by decide) _) hdW
    · intro e he
      simp at he
      subst he
      decide

theorem noSub_G2t (b : Str) (hb : noSub (sLit "# =") b) :
    noSub (sLit "# =")
      ((' ' :: List.replicate 42 '=') ++ (sLit "\n[Peer]\n" ++ b)) := by
  apply noSub_append_nl ?h42
  case h42 =>
    intro hmem
    rcases List.mem_cons.mp hmem with h | h
    · exact absurd h (by decide)
    · rw [List.mem_replicate] at h
      exact absurd h.2 (by decide)
  apply noSub_append_last' (by decide) (noSub_iff.mp (by decide)) hb
    (show (sLit "\n[Peer]\n").getLast? = some '\n' from by decide)
    (by decide)

theorem genCore_G12 (m d b : Str) :
    genCore m d b = '#' :: (G1tOf m d ++ ('#' :: G2tOf b)) := by
  simp only [genCore, bannerLine_eq, G1tOf, G2tOf, List.append_assoc,
    List.cons_append]
  rfl

theorem G1tOf_snoc (m d : Str) :
    G1tOf m d = ((' ' :: List.replicate 42 '=') ++ ('\n' ::
      (sLit "# ClientName:" ++ ((' ' :: m) ++ ('\n' ::
        (sLit "# AddedAt:" ++ (' ' :: d))))))) ++ ['\n'] := by
  simp only [G1tOf, List.append_assoc, List.cons_append]

theorem G1tOf_len_pos (m d : Str) : 0 < (G1tOf m d).length := by
  simp [G1tOf]

theorem noRem_DF (m d b X : Str)
    (hmW : noSub (sLit "# =") m) (hdW : noSub (sLit "# =") d)
    (hb : noSub (sLit "# =") b)
    (hXh : X = [] ∨ X.head? = some '\n') :
    ∀ i, 2 ≤ i → i ≠ 2 + (G1tOf m d).length →
      dropPref (sLit "# =")
        (('\n' :: '#' :: (G1tOf m d ++ ('#' :: G2tOf b))).drop i ++ X) = none := by
  have hd1 : ∀ e, (('#' :: G2tOf b) ++ X).head? = some e →
      e ∉ (sLit "# =").drop 1 := by
    intro e he
    rw [List.cons_append, List.head?_cons] at he
    injection he with he
    subst he
    decide
  have hd2 : ∀ e, X.head? = some e → e ∉ (sLit "# =").drop 1 := by
    intro e he
    rcases hXh with rfl | hXh
    · simp at he
    · rw [hXh] at he
      injection he with he
      subst he
      decide
  have F1 : ∀ k, k < (G1tOf m d).length →
      dropPref (sLit "# =") ((G1tOf m d).drop k ++ (('#' :: G2tOf b) ++ X)) = none := by
    have h := noSub_G1t m d hmW hdW
    rw [← G1tOf] at h
    exact noOcc_head (by decide) h hd1
  have F2 : ∀ k, k < (G2tOf b).length →
      dropPref (sLit "# =") ((G2tOf b).drop k ++ X) = none := by
    have h := noSub_G2t b hb
    rw [← G2tOf] at h
    exact noOcc_head (by decide) h hd2
  have hXn : dropPref (sLit "# =") X = none := by
    rcases hXh with rfl | hXh
    · rfl
    · cases X with
      | nil => rfl
      | cons c cs =>
        injection hXh with hXh
        exact dropPref_hash_ne (by rw [hXh]; decide) _
  intro i h2 hne
  obtain ⟨k, rfl⟩ : ∃ k, i = k + 2 := ⟨i - 2, by omega⟩
  rw [show ('\n' :: '#' :: (G1tOf m d ++ ('#' :: G2tOf b))).drop (k + 2)
      = (G1tOf m d ++ ('#' :: G2tOf b)).drop k from rfl]
  by_cases hk : k < (G1tOf m d).length
  · rw [List.drop_append_of_le_length (Nat.le_of_lt hk), List.append_assoc]
    exact F1 k hk
  · push_neg at hk
    have hk1 : (G1tOf m d).length + 1 ≤ k := by omega
    rw [show k = (G1tOf m d).length + (k - (G1tOf m d).length) from by omega,
      List.drop_append]
    rw [show k - (G1tOf m d).length = (k - (G1tOf m d).length - 1) + 1 from by omega]
    rw [List.drop_succ_cons]
    by_cases hk2 : k - (G1tOf m d).length - 1 < (G2tOf b).length
    · exact F2 _ hk2
    · push_neg at hk2
      rw [List.drop_of_length_le hk2]
      simpa using hXn

theorem noRem_block (name m d b X : Str)
    (hne : name ≠ m) (hn : '\n' ∉ name)
    (hm2 : '\n' ∉ m) (hmW : noSub (sLit "# =") m)
    (hdW : noSub (sLit "# =") d)
    (hb : noSub (sLit "# =") b)
    (hXh : X = [] ∨ X.head? = some '\n') :
    ∀ j, j < ('\n' :: genCore m d b).length →
      matchRemoveAt name (('\n' :: genCore m d b).drop j ++ X) = none := by
  have hA2 := genCore_G12 m d b
  have hG2X : ('#' :: G2tOf b) ++ X
      = bannerLine ++ (sLit "\n[Peer]\n" ++ (b ++ X)) := by
    simp only [G2tOf, bannerLine_eq, List.append_assoc, List.cons_append]
    rfl
  have DF := noRem_DF m d b X hmW hdW hb hXh
  intro j hj
  rw [hA2] at hj ⊢
  by_cases hj0 : j = 0
  · subst hj0
    rw [List.drop_zero, List.cons_append, matchRemoveAt_nl_eq]
    rw [show ('#' :: (G1tOf m d ++ ('#' :: G2tOf b))) ++ X
        = genCore m d b ++ X from by rw [hA2]]
    exact matchRemoveCore_mismatch hne hn hm2 d b X
  by_cases hj1 : j = 1
  · subst hj1
    rw [show ('\n' :: '#' :: (G1tOf m d ++ ('#' :: G2tOf b))).drop 1
        = '#' :: (G1tOf m d ++ ('#' :: G2tOf b)) from rfl]
    rw [matchRemoveAt_core_of_head (by rw [List.cons_append]; simp)]
    rw [show ('#' :: (G1tOf m d ++ ('#' :: G2tOf b))) ++ X
        = genCore m d b ++ X from by rw [hA2]]
    exact matchRemoveCore_mismatch hne hn hm2 d b X
  by_cases hjv : j = 1 + (G1tOf m d).length
  · subst hjv
    obtain ⟨S, hS⟩ : ∃ S, G1tOf m d = S ++ ['\n'] := ⟨_, G1tOf_snoc m d⟩
    have hlen2 : (G1tOf m d).length = S.length + 1 := by rw [hS]; simp
    rw [show 1 + (G1tOf m d).length = ((G1tOf m d).length - 1) + 2 from by
      have := G1tOf_len_pos m d; omega]
    rw [show ('\n' :: '#' :: (G1tOf m d ++ ('#' :: G2tOf b))).drop
        (((G1tOf m d).length - 1) + 2)
        = (G1tOf m d ++ ('#' :: G2tOf b)).drop ((G1tOf m d).length - 1) from rfl]
    rw [hS, List.append_assoc]
    rw [show (S ++ ['\n']).length - 1 = S.length + 0 from by simp]
    rw [List.drop_append, List.drop_zero]
    rw [show (['\n'] ++ ('#' :: G2tOf b)) ++ X
        = '\n' :: (('#' :: G2tOf b) ++ X) from rfl]
    rw [matchRemoveAt_nl_eq, hG2X]
    exact matchRemoveCore_peerHdr name b X
  by_cases hjd : j = 2 + (G1tOf m d).length
  · subst hjd
    rw [show 2 + (G1tOf m d).length = (G1tOf m d).length + 2 from by omega]
    rw [show ('\n' :: '#' :: (G1tOf m d ++ ('#' :: G2tOf b))).drop
        ((G1tOf m d).length + 2)
        = (G1tOf m d ++ ('#' :: G2tOf b)).drop (G1tOf m d).length from rfl]
    rw [show (G1tOf m d).length = (G1tOf m d).length + 0 from by omega,
      List.drop_append, List.drop_zero]
    rw [matchRemoveAt_core_of_head (by rw [List.cons_append]; simp)]
    rw [hG2X]
    exact matchRemoveCore_peerHdr name b X
  · have hj2 : 2 ≤ j := by omega
    apply matchRemoveAt_none_of
    · exact DF j hj2 (by omega)
    · intro t ht
      set A := '\n' :: '#' :: (G1tOf m d ++ ('#' :: G2tOf b)) with hAdef
      cases hdp : A.drop j with
      | nil =>
        exfalso
        have := congrArg List.length hdp
        rw [List.length_drop] at this
        simp at this
        omega
      | cons c rest =>
        have hrest : rest = A.drop (j + 1) := by
          have h1 : (A.drop j).drop 1 = A.drop (j + 1) := List.drop_drop 1 j A
          rw [hdp] at h1
          simpa using h1
        rw [hdp, List.cons_append] at ht
        injection ht with ht1 ht2
        rw [← ht2, hrest]
        exact DF (j + 1) (by omega) (by omega)

theorem matchRemoveCore_nl (name Z : Str) :
    matchRemoveCore name ('\n' :: Z) = none := by
  cases hc : matchRemoveCore name ('\n' :: Z) with
  | none => rfl
  | some r =>
    have hn := matchRemoveCore_needs hc
    rw [dropPref_hash_ne (by decide) Z] at hn
    simp at hn

theorem chainN_head (bs : List RawBlock) : (chainN bs).head? = some '\n' := by
  cases bs <;> rfl

theorem chainN_cons_head (bs : List RawBlock) :
    chainN bs = '\n' :: (chainN bs).drop 1 := by
  cases bs <;> rfl

theorem subnGo_chain (name : Str) (hnn : '\n' ∉ name) :
    ∀ (ss : List PeerSpec), (∀ s ∈ ss, WfSpecB s = true) →
    (subnGo name ((chainN (ss.map specRaw)).length + 1) (chainN (ss.map specRaw))
       = (chainN ((ss.filter (fun s => ¬ s.name = name)).map specRaw),
          (ss.filter (fun s => s.name = name)).length)) ∧
    (subnGo name (((chainN (ss.map specRaw)).drop 1).length + 1)
        ((chainN (ss.map specRaw)).drop 1)
       = ((chainN ((ss.filter (fun s => ¬ s.name = name)).map specRaw)).drop 1,
          (ss.filter (fun s => s.name = name)).length)) := by
  intro ss
  induction ss with
  | nil =>
    intro _
    constructor
    · show subnGo name (1 + 1) ['\n'] = (['\n'], 0)
      rw [subnGo_step_n 1 (by rw [matchRemoveAt_nl_eq]; exact matchRemoveCore_nl name [])]
      rfl
    · rfl
  | cons s ss ih =>
    intro hwf
    obtain ⟨h1, h2, h3, h4, h5, h6⟩ := wfSpec_dest (hwf s (by simp))
    obtain ⟨ih1, ih2⟩ := ih (fun x hx => hwf x (by simp [hx]))
    have dn := wfField_dest h1
    have dd := wfField_dest h4
    have hbH : noSub (sLit "# =")
        (bodyOf s.public_key s.assigned_ip s.preshared_key s.endpoint) :=
      noSub_hash_bodyOf s.public_key s.assigned_ip s.preshared_key s.endpoint
        h2 h3 (wfOpt_some h6) (wfOpt_some h5)
    have hbN : noSub (sLit "\n# =")
        (bodyOf s.public_key s.assigned_ip s.preshared_key s.endpoint) :=
      noSub_nlq_bodyOf s.public_key s.assigned_ip s.preshared_key s.endpoint
        (wfField_dest h2).2.1 (wfField_dest h3).2.1 (wfOpt_nl h6) (wfOpt_nl h5)
    set b := bodyOf s.public_key s.assigned_ip s.preshared_key s.endpoint with hbdef
    set X := chainN (ss.map specRaw) with hX
    have hcc : chainN ((s :: ss).map specRaw)
        = '\n' :: (('\n' :: genCore s.name s.added_at b) ++ X) := by
      simp [chainN, specRaw]
    by_cases ht : s.name = name
    · have hmatch : matchRemoveAt name (('\n' :: genCore s.name s.added_at b) ++ X)
          = some (X.drop 1) := by
        rw [List.cons_append, matchRemoveAt_nl_eq]
        rw [← ht]
        rw [matchRemoveCore_genCore dd.1 dd.2.1
          (lazyStar_body_chainN b (ss.map specRaw) hbN)]
      have hfilt1 : ((s :: ss).filter (fun x => ¬ x.name = name)).map specRaw
          = (ss.filter (fun x => ¬ x.name = name)).map specRaw := by
        simp [List.filter_cons, ht]
      have hfilt2 : ((s :: ss).filter (fun x => x.name = name)).length
          = (ss.filter (fun x => x.name = name)).length + 1 := by
        simp [List.filter_cons, ht]
      have hcore : subnGo name ((('\n' :: genCore s.name s.added_at b) ++ X).length + 1)
          (('\n' :: genCore s.name s.added_at b) ++ X)
          = ((chainN ((ss.filter (fun x => ¬ x.name = name)).map specRaw)).drop 1,
             (ss.filter (fun x => x.name = name)).length + 1) := by
        have e : (('\n' :: genCore s.name s.added_at b) ++ X)
            = '\n' :: (genCore s.name s.added_at b ++ X) := rfl
        rw [e] at hmatch ⊢
        rw [show ('\n' :: (genCore s.name s.added_at b ++ X)).length + 1
            = ((genCore s.name s.added_at b ++ X).length + 1) + 1 from by simp]
        rw [subnGo_step_m _ hmatch]
        rw [subnGo_fuel name ((genCore s.name s.added_at b ++ X).length + 1) (X.drop 1) (by
          have h0 : 0 < (genCore s.name s.added_at b).length :=
            List.length_pos.mpr (genCore_ne_nil s.name s.added_at b)
          simp [List.length_drop]
          omega)]
        rw [show (X.drop 1).length = X.length - 1 from by simp]
        have hXlen : 1 ≤ X.length := by
          rw [hX, chainN_cons_head]
          simp
        rw [show X.length - 1 + 1 = (X.drop 1).length + 1 from by
          simp [List.length_drop]]
        rw [ih2]
      constructor
      · rw [hcc]
        rw [show ('\n' :: (('\n' :: genCore s.name s.added_at b) ++ X)).length + 1
            = ((('\n' :: genCore s.name s.added_at b) ++ X).length + 1) + 1 from by simp]
        rw [subnGo_step_n _ (by
          rw [show ('\n' :: genCore s.name s.added_at b) ++ X
              = '\n' :: (genCore s.name s.added_at b ++ X) from rfl,
            matchRemoveAt_nl_eq]
          exact matchRemoveCore_nl name _)]
        rw [hcore, hfilt1, hfilt2]
        rw [← chainN_cons_head ((ss.filter (fun x => ¬ x.name = name)).map specRaw)]
      · rw [hcc]
        rw [show ('\n' :: (('\n' :: genCore s.name s.added_at b) ++ X)).drop 1
            = ('\n' :: genCore s.name s.added_at b) ++ X from rfl]
        rw [hcore, hfilt1, hfilt2]
    · have hwalk := noRem_block name s.name s.added_at b X
        (fun he => ht he.symm)
        hnn dn.2.1 dn.2.2.2.1 dd.2.2.2.1 hbH
        (Or.inr (by rw [hX]; exact chainN_head _))
      have hfilt1 : ((s :: ss).filter (fun x => ¬ x.name = name)).map specRaw
          = specRaw s :: (ss.filter (fun x => ¬ x.name = name)).map specRaw := by
        simp [List.filter_cons, ht]
      have hfilt2 : ((s :: ss).filter (fun x => x.name = name)).length
          = (ss.filter (fun x => x.name = name)).length := by
        simp [List.filter_cons, ht]
      have hcore : subnGo name ((('\n' :: genCore s.name s.added_at b) ++ X).length + 1)
          (('\n' :: genCore s.name s.added_at b) ++ X)
          = (('\n' :: genCore s.name s.added_at b) ++
              chainN ((ss.filter (fun x => ¬ x.name = name)).map specRaw),
             (ss.filter (fun x => x.name = name)).length) := by
        rw [subnGo_walk name ('\n' :: genCore s.name s.added_at b) X hwalk]
        rw [ih1]
      constructor
      · rw [hcc]
        rw [show ('\n' :: (('\n' :: genCore s.name s.added_at b) ++ X)).length + 1
            = ((('\n' :: genCore s.name s.added_at b) ++ X).length + 1) + 1 from by simp]
        rw [subnGo_step_n _ (by
          rw [show ('\n' :: genCore s.name s.added_at b) ++ X
              = '\n' :: (genCore s.name s.added_at b ++ X) from rfl,
            matchRemoveAt_nl_eq]
          exact matchRemoveCore_nl name _)]
        rw [hcore, hfilt1, hfilt2]
        simp [chainN, specRaw]
      · rw [hcc]
        rw [show ('\n' :: (('\n' :: genCore s.name s.added_at b) ++ X)).drop 1
            = ('\n' :: genCore s.name s.added_at b) ++ X from rfl]
        rw [hcore, hfilt1, hfilt2]
        simp [chainN, specRaw]

theorem subn_storeOf (P : Str) (ss : List PeerSpec) (name : Str)
    (hP : noSub (sLit "# =") P) (hnn : '\n' ∉ name)
    (hss : ∀ s ∈ ss, WfSpecB s = true) :
    subnGo name ((storeOf P ss).length + 1) (storeOf P ss)
      = (storeOf P (ss.filter (fun s => ¬ s.name = name)),
         (ss.filter (fun s => s.name = name)).length) := by
  have hXh : (chainN (ss.map specRaw)).head? = some '\n' := chainN_head _
  have G : ∀ i, dropPref (sLit "# =") (P.drop i ++ chainN (ss.map specRaw)) = none := by
    intro i
    by_cases hi : i < P.length
    · exact noOcc_head (by decide) hP
        (fun e he => by
          rw [chainN_cons_head (ss.map specRaw), List.head?_cons] at he
          injection he with he
          subst he
          decide) i hi
    · push_neg at hi
      rw [List.drop_of_length_le hi, List.nil_append]
      rw [chainN_cons_head (ss.map specRaw)]
      exact dropPref_hash_ne (by decide) _
  have hwalk : ∀ j, j < P.length →
      matchRemoveAt name (P.drop j ++ chainN (ss.map specRaw)) = none := by
    intro j hj
    apply matchRemoveAt_none_of (G j)
    intro t ht
    cases hdp : P.drop j with
    | nil =>
      exfalso
      have := congrArg List.length hdp
      rw [List.length_drop] at this
      simp at this
      omega
    | cons c rest =>
      have hrest : rest = P.drop (j + 1) := by
        have := List.drop_drop 1 j P
        rw [hdp] at this
        simpa using this
      rw [hdp, List.cons_append] at ht
      injection ht with ht1 ht2
      rw [← ht2, hrest]
      exact G (j + 1)
  show subnGo name ((P ++ chainN (ss.map specRaw)).length + 1)
      (P ++ chainN (ss.map specRaw)) = _
  rw [subnGo_walk name P (chainN (ss.map specRaw)) hwalk]
  rw [(subnGo_chain name hnn ss hss).1]
  rfl

theorem remove_storeOf (P : Str) (ss : List PeerSpec) (name : Str)
    (hP : noSub (sLit "# =") P) (hnn : '\n' ∉ name)
    (hss : ∀ s ∈ ss, WfSpecB s = true) :
    remove_peer (storeOf P ss) name
      = if (ss.filter (fun s => s.name = name)).length = 0 then none
        else some (storeOf P (ss.filter (fun s => ¬ s.name = name))) := by
  unfold remove_peer
  rw [subn_storeOf P ss name hP hnn hss]
  cases hc : (ss.filter (fun s => s.name = name)).length with
  | zero => simp
  | succ k => simp

/-- **C5.** On a canonical store, `remove name` with the name absent
returns `false` and leaves the store byte-identical (no write); with the
name present it returns `true`, the store afterwards contains exactly the
other records' blocks in their original order, a subsequent list returns
exactly the other records unchanged and in order, and the removed name no
longer appears. -/
theorem claim_C5 :
    ∀ (P : Str) (ss : List PeerSpec) (name : Str),
      WfPrefixB P = true → '\n' ∉ name → (∀ s ∈ ss, WfSpecB s = true) →
      ((∀ s ∈ ss, s.name ≠ name) →
        removePeerState (some (storeOf P ss)) name
          = (some (storeOf P ss), Except.ok false))
      ∧ ((∃ s ∈ ss, s.name = name) →
        removePeerState (some (storeOf P ss)) name
          = (some (storeOf P (ss.filter (fun s => ¬ s.name = name))), Except.ok true)
        ∧ parse_peers (storeOf P (ss.filter (fun s => ¬ s.name = name)))
            = (ss.filter (fun s => ¬ s.name = name)).map specPeer
        ∧ name ∉ (ss.filter (fun s => ¬ s.name = name)).map PeerSpec.name) := by
  intro P ss name hPw hnn hss
  have hPu : noSub (sLit "# =") P ∧ pyRStrip P = P := by
    have := hPw
    simp only [WfPrefixB, Bool.and_eq_true, decide_eq_true_eq] at this
    exact ⟨noSub_iff.mp this.1, this.2⟩
  have hrem := remove_storeOf P ss name hPu.1 hnn hss
  constructor
  · intro habs
    have hnil : ss.filter (fun s => s.name = name) = [] := by
      rw [List.filter_eq_nil]
      intro s hs
      simp [habs s hs]
    rw [hnil, if_pos (show (List.length ([] : List PeerSpec) = 0) from rfl)] at hrem
    simp only [removePeerState, read_config, hrem]
  · rintro ⟨s0, hs0, hname⟩
    have hne : (ss.filter (fun s => s.name = name)).length ≠ 0 := by
      have : s0 ∈ ss.filter (fun s => s.name = name) :=
        List.mem_filter.mpr ⟨hs0, by simp [hname]⟩
      intro h0
      rw [List.length_eq_zero.mp h0] at this
      simp at this
    rw [if_neg hne] at hrem
    refine ⟨?_, ?_, ?_⟩
    · simp only [removePeerState, read_config, hrem]
    · exact parse_storeOf P _ hPu.1
        (fun x hx => hss x (List.mem_filter.mp hx).1)
    · intro hmem
      obtain ⟨x, hx, hxe⟩ := List.mem_map.mp hmem
      have := (List.mem_filter.mp hx).2
      simp at this
      exact this (by rw [hxe])

/-- Witness for C5: removing `"five"` from the two-record store. -/
theorem claim_C5_witness :
    removePeerState (some (storeOf cIface [spec5, spec6])) (sLit "five")
      = (some (storeOf cIface
          ([spec5, spec6].filter (fun s => ¬ s.name = sLit "five"))),
         Except.ok true)
    ∧ parse_peers (storeOf cIface
          ([spec5, spec6].filter (fun s => ¬ s.name = sLit "five")))
        = ([spec5, spec6].filter (fun s => ¬ s.name = sLit "five")).map specPeer
    ∧ sLit "five" ∉
        ([spec5, spec6].filter (fun s => ¬ s.name = sLit "five")).map PeerSpec.name :=
  (claim_C5 cIface [spec5, spec6] (sLit "five") (by decide) (by decide)
    (by decide)).2 ⟨spec5, by simp, rfl⟩

/-- **C9.** `remove` interprets the requested name literally, not as a
regular expression: on any canonical store it deletes exactly the blocks
whose `ClientName` header equals the name character for character; in
particular, with peers `a.b` and `axb` present, removing `a.b` deletes
only the `a.b` block and leaves `axb`, and removing `a.b` from a store
holding only `axb` deletes nothing even though the regex `a.b` would
match `axb`. -/
theorem claim_C9 :
    (∀ (P : Str) (ss : List PeerSpec) (name : Str),
      WfPrefixB P = true → '\n' ∉ name → (∀ s ∈ ss, WfSpecB s = true) →
      remove_peer (storeOf P ss) name
        = if (ss.filter (fun s => s.name = name)).length = 0 then none
          else some (storeOf P (ss.filter (fun s => ¬ s.name = name))))
    ∧ remove_peer cStoreMeta (sLit "a.b") = some cStoreAXB
    ∧ remove_peer cStoreAXB (sLit "a.b") = none
    ∧ remove_peer cStoreAXB (sLit "axb") = some (storeOf cIface []) := by
  refine ⟨?_, by decide, by decide, by decide⟩
  intro P ss name hPw hnn hss
  have hPu : noSub (sLit "# =") P := by
    have := hPw
    simp only [WfPrefixB, Bool.and_eq_true, decide_eq_true_eq] at this
    exact noSub_iff.mp this.1
  exact remove_storeOf P ss name hPu hnn hss

/-- Witness for C9: the general clause applied to the `a.b`/`axb` store
and the literal name `axb`. -/
theorem claim_C9_witness :
    remove_peer (storeOf cIface [specAB, specAXB]) (sLit "axb")
      = if (([specAB, specAXB].filter
            (fun s => s.name = sLit "axb")).length = 0) then none
        else some (storeOf cIface
          ([specAB, specAXB].filter (fun s => ¬ s.name = sLit "axb"))) :=
  claim_C9.1 cIface [specAB, specAXB] (sLit "axb") (by decide) (by decide)
    (by decide)
